import Mathlib

/-!
# The voxel world streaming coordinator (`voxel::World`)

A shallow embedding of `src/modules/voxel/World.h` and `World.cpp`: the mesh
extraction scheduler with its dedup set (`_meshesExtracted`), the collection of
task handles (`_futures`), the delivery queue (`_meshQueue`) and the
cancellation flag (`_cancelThreads`), followed by the properties proved about
them.

Worker threads are modelled by interleaving: a worker task advances from one
cancellation checkpoint to the next in one atomic step (`taskStep`), between
two calls of the owning thread. A worker only reads the cancellation flag and
pushes to the delivery queue, so this loses no behaviour of the dedup set, the
handles or the flag. The paged volume and the world context are external and
not part of the state.

The queries (`raycast`, `findFloor`, `findPath`, `randomPos`) read the volume
only through collaborators whose sources are elsewhere; a ray is given by the
list of voxels it visits, and the pathfinder and the random number generator
are parameters.
-/

namespace voxel

/-! ## Data model -/

/-- Integer vector (`glm::ivec3`). -/
structure IVec3 where
  x : Int
  y : Int
  z : Int
deriving DecidableEq, Repr

/-- Axis aligned box of voxels with inclusive corners (`voxel::Region`). -/
structure Region where
  mins : IVec3
  maxs : IVec3
deriving DecidableEq, Repr

/-- Modelled from the spec: `Region::getWidthInVoxels` of `voxel/polyvox/Region.h`,
a file that is not among the sources; the number of voxels along x of a box
with inclusive corners. -/
def Region.getWidthInVoxels (r : Region) : Int := r.maxs.x - r.mins.x + 1

/-- Modelled from the spec: `Region::getDepthInVoxels` of `voxel/polyvox/Region.h`,
a file that is not among the sources; the number of voxels along z of a box
with inclusive corners. -/
def Region.getDepthInVoxels (r : Region) : Int := r.maxs.z - r.mins.z + 1

/-- Modelled from the spec: `voxel::Mesh` of `voxel/polyvox/Mesh.h`, a file that
is not among the sources, reduced to what the coordinator looks at: the offset
of the region the mesh was extracted from and the capacities it was allocated
with. -/
structure Mesh where
  offset : IVec3
  vertexCapacity : Int
  indexCapacity : Int
deriving DecidableEq, Repr

/-- The pair of meshes of one tile, `struct ChunkMeshes`. -/
structure ChunkMeshes where
  opaqueMesh : Mesh
  waterMesh : Mesh
deriving DecidableEq, Repr

/-- Constructor `ChunkMeshes(opaqueVertices, opaqueIndices, waterVertices, waterIndices)`. -/
def ChunkMeshes.create (opaqueVertices opaqueIndices waterVertices waterIndices : Int) :
    ChunkMeshes :=
  { opaqueMesh := ⟨⟨0, 0, 0⟩, opaqueVertices, opaqueIndices⟩
    waterMesh := ⟨⟨0, 0, 0⟩, waterVertices, waterIndices⟩ }

/-- Translation of a mesh pair, `ChunkMeshes::translation`. -/
def ChunkMeshes.translation (c : ChunkMeshes) : IVec3 := c.opaqueMesh.offset

/-- Modelled from the spec: the region mesher `extractCubicMesh` of
`voxel/polyvox/CubicSurfaceExtractor.h`, a file that is not among the sources.
The result records the lower corner of the region as the offset of the mesh
("the originating tile offset"); the polygons themselves are not modelled. -/
def extractCubicMesh (region : Region) (mesh : Mesh) : Mesh :=
  { mesh with offset := region.mins }

/-- Progress of a worker task (the lambda enqueued by `scheduleMeshExtraction`),
one constructor per stretch of code between two reads of `_cancelThreads`. -/
inductive TaskState where
  /-- enqueued, the lambda has not started -/
  | queued
  /-- first read passed: region computed and buffers allocated -/
  | allocated (region : Region) (data : ChunkMeshes)
  /-- second read passed: the mesh of the solid materials is extracted -/
  | solidExtracted (region : Region) (data : ChunkMeshes)
  /-- third read passed: the water mesh is extracted -/
  | waterExtracted (region : Region) (data : ChunkMeshes)
  /-- the lambda returned, the future is ready -/
  | finished
deriving DecidableEq, Repr

/-- A task handle (`std::future<void>`) together with the task it belongs to:
the captured tile `pos` and the progress of the task. -/
structure Future where
  pos : IVec3
  state : TaskState
deriving DecidableEq, Repr

/-- Readiness test `future.wait_for(zero) == std::future_status::ready`. -/
def Future.ready (f : Future) : Bool :=
  match f.state with
  | .finished => true
  | _ => false

/-- The state of `class World` that the extraction coordinator works on. -/
structure World where
  /-- value of the configuration variable behind `getMeshSize()` -/
  meshSize : Int
  /-- `_meshQueue`, oldest entry first -/
  meshQueue : List ChunkMeshes
  /-- `_meshesExtracted`, the dedup set -/
  meshesExtracted : Finset IVec3
  /-- `_futures`, in submission order -/
  futures : List Future
  /-- `_cancelThreads` -/
  cancelThreads : Bool
deriving DecidableEq

/-! ## Machine arithmetic

`int` is the 32-bit two's-complement integer and `float` the IEEE 754 binary32
number with 24 significant bits, rounded to nearest, ties to even. A `float`
whose value is an integer is represented by that integer. The exponent range of
`float` is not modelled: no value computed from `int`s comes near it.
-/

/-- The `int` that holds an exact result `n`: `n` itself when it fits, wrapped
around modulo 2^32 otherwise. -/
def wrapInt32 (n : Int) : Int := (n + 2147483648) % 4294967296 - 2147483648

/-- The integer nearest to `n / d`, the even one of the two when `n / d` lies
half way between them. -/
def roundHalfEven (n d : Nat) : Nat :=
  let q := n / d
  let r := n % d
  if 2 * r < d then q
  else if d < 2 * r then q + 1
  else if q % 2 = 0 then q else q + 1

/-- Number of binary digits of `n`, counted with at most `fuel` halvings. -/
def bitLengthAux : Nat → Nat → Nat
  | 0, _ => 0
  | fuel + 1, n => if n = 0 then 0 else bitLengthAux fuel (n / 2) + 1

/-- Number of binary digits of `n`: the least `k` with `n < 2 ^ k`. -/
def bitLength (n : Nat) : Nat := bitLengthAux n n

/-- Binary logarithm of `n`, rounded down; 0 for `n = 0`. -/
def floorLog2 (n : Nat) : Nat := bitLength n - 1

/-- The `float` nearest to the integer `n`: the conversion of an `int` to
`float`, and the rounding of an exact integer result of a `float` operation.
Integers of up to 24 binary digits are kept, longer ones are rounded to 24
significant digits. -/
def roundToFloat (n : Int) : Int :=
  let bits := bitLength n.natAbs
  if bits ≤ 24 then n
  else
    let ulp := 2 ^ (bits - 24)
    Int.sign n * ((roundHalfEven n.natAbs ulp * ulp : Nat) : Int)

/-- For `n < d`, the least `c` with `d ≤ n * 2 ^ c`. -/
def ceilLog2Ratio (d n : Nat) : Nat :=
  let c := floorLog2 (d / n)
  if d ≤ n * 2 ^ c then c else c + 1

/-- The value of `glm::floor(a / s)` for `float`s `a` and `s` with integer
values: the quotient is rounded to 24 significant binary digits, as the
`float` division does, and then rounded down to an integer. With the binary
exponent `e` of the quotient, `down` is `23 - e` and `up` is `e - 23`, whichever
is not negative; the 24-digit mantissa is the quotient scaled by
`2 ^ down / 2 ^ up`. A division by zero, which gives no number, yields 0 here. -/
def floorOfFloatDiv (a s : Int) : Int :=
  let n := a.natAbs
  let d := s.natAbs
  if n = 0 ∨ d = 0 then 0
  else
    let down : Nat := if d ≤ n then 23 - floorLog2 (n / d) else 23 + ceilLog2Ratio d n
    let up : Nat := if d ≤ n then floorLog2 (n / d) - 23 else 0
    let mantissa := roundHalfEven (n * 2 ^ down) (d * 2 ^ up)
    let signed : Int :=
      if decide (a < 0) = decide (s < 0) then (mantissa : Int) else -(mantissa : Int)
    Int.fdiv (signed * 2 ^ up) (2 ^ down)

/-! ## Coordinates and regions -/

/-- One component of `World::getMeshPos`: `glm::floor(c / size)` is computed in
`float` and converted to `int`, the product with `size` is again computed in
`float` and converted to `int` by the constructor of `glm::ivec3`. -/
def getMeshCoord (size : Int) (c : Int) : Int :=
  let sizeF := roundToFloat size
  let x := wrapInt32 (floorOfFloatDiv (roundToFloat c) sizeF)
  wrapInt32 (roundToFloat (roundToFloat x * sizeF))

/-- Mesh tile of a world position, `World::getMeshPos`, in the `float`
arithmetic of the source. -/
def getMeshPos (size : Int) (pos : IVec3) : IVec3 :=
  let x := getMeshCoord size pos.x
  let y := getMeshCoord size pos.y
  let z := getMeshCoord size pos.z
  ⟨x, y, z⟩

/-- Region of a tile, `World::getRegion`, in the `int` arithmetic of the source.
`maxHeight` is the constant `MAX_HEIGHT` of `voxel/Constants.h`. -/
def getRegion (maxHeight : Int) (pos : IVec3) (size : Int) : Region :=
  let deltaX := wrapInt32 (size - 1)
  let deltaZ := wrapInt32 (size - 1)
  let mins : IVec3 := ⟨pos.x, 0, pos.z⟩
  let maxs : IVec3 :=
    ⟨wrapInt32 (pos.x + deltaX), wrapInt32 (maxHeight - 1), wrapInt32 (pos.z + deltaZ)⟩
  ⟨mins, maxs⟩

/-- Region of a mesh tile, `World::getMeshRegion`. -/
def getMeshRegion (maxHeight : Int) (meshSize : Int) (pos : IVec3) : Region :=
  getRegion maxHeight pos meshSize

/-- Whether `n` is a value of the type `int`. -/
def fitsInt32 (n : Int) : Prop := -2147483648 ≤ n ∧ n ≤ 2147483647

/-- Whether a coordinate `c` is such that, for the mesh size `size`, every
`float` in `getMeshPos` holds its exact value: `c` and the start of its tile
have at most 24 binary digits. -/
def exactCoord (size c : Int) : Prop := -16777216 + size ≤ c ∧ c < 16777216

/-- Whether every coordinate of `p` is exact for the mesh size `size`. -/
def IVec3.exactFor (size : Int) (p : IVec3) : Prop :=
  exactCoord size p.x ∧ exactCoord size p.y ∧ exactCoord size p.z

/-! ## Operations of the owning thread -/

/-- Body of `World::scheduleMeshExtraction`: the returned flag and the new state. -/
def scheduleMeshExtraction (w : World) (p : IVec3) : Bool × World :=
  if w.cancelThreads then
    (false, w)
  else
    let pos := getMeshPos w.meshSize p
    if pos ∈ w.meshesExtracted then
      (false, w)
    else
      (true, { w with
        meshesExtracted := insert pos w.meshesExtracted
        futures := w.futures ++ [⟨pos, TaskState.queued⟩] })

/-- Body of `World::allowReExtraction`: `erase` reports whether the tile was there. -/
def allowReExtraction (w : World) (pos : IVec3) : Bool × World :=
  let gridPos := getMeshPos w.meshSize pos
  (decide (gridPos ∈ w.meshesExtracted),
    { w with meshesExtracted := w.meshesExtracted.erase gridPos })

/-- Modelled from the spec: `World::pop` forwards to `core::ConcurrentQueue::pop`
of `core/ConcurrentQueue.h`, a file that is not among the sources; a
non-blocking attempt to dequeue one completed result, `none` when the queue is
empty. -/
def pop (w : World) : Option ChunkMeshes × World :=
  match w.meshQueue with
  | [] => (none, w)
  | item :: rest => (some item, { w with meshQueue := rest })

/-- Body of `World::reset`. -/
def reset (w : World) : World :=
  { w with cancelThreads := true }

/-- The loop of `World::cleanupFutures`: erase the handle at the front while it
is ready, stop at the first handle that is not. -/
def cleanupFutures : List Future → List Future
  | [] => []
  | future :: rest => if future.ready then cleanupFutures rest else future :: rest

/-- Body of `World::onFrame`. `_meshQueue.clear()` discards all queued items;
`flushAll`, the new `WorldContext` and `abortWait` act on parts that are
outside the state. -/
def onFrame (w : World) : World :=
  let w1 := { w with futures := cleanupFutures w.futures }
  if w1.cancelThreads then
    if !w1.futures.isEmpty then
      w1
    else
      { w1 with meshesExtracted := ∅, meshQueue := [], cancelThreads := false }
  else
    w1

/-- Body of `World::isReset`. -/
def isReset (w : World) : Bool := w.cancelThreads

/-- Body of `World::stats`: the values written to `meshes`, `extracted`, `pending`. -/
def stats (w : World) : Int × Int × Int :=
  (w.meshQueue.length, w.meshesExtracted.card, w.futures.length)

/-! ## Worker tasks -/

/-- One stretch of the task lambda: read `_cancelThreads` (the argument
`cancel`), return if it is set, otherwise run the code up to the next read.
The second component is the mesh pair pushed to `_meshQueue`, if any. -/
def workerStep (maxHeight meshSize : Int) (cancel : Bool) (pos : IVec3) :
    TaskState → TaskState × Option ChunkMeshes
  | .queued =>
    if cancel then (.finished, none)
    else
      let region := getMeshRegion maxHeight meshSize pos
      let solidFactor := 16
      let waterFactor := 16
      let solidVertices := region.getWidthInVoxels * region.getDepthInVoxels * solidFactor
      let waterVertices := region.getWidthInVoxels * region.getDepthInVoxels * waterFactor
      (.allocated region
        (ChunkMeshes.create solidVertices solidVertices waterVertices waterVertices), none)
  | .allocated region data =>
    if cancel then (.finished, none)
    else (.solidExtracted region
      { data with opaqueMesh := extractCubicMesh region data.opaqueMesh }, none)
  | .solidExtracted region data =>
    if cancel then (.finished, none)
    else (.waterExtracted region
      { data with waterMesh := extractCubicMesh region data.waterMesh }, none)
  | .waterExtracted _ data =>
    if cancel then (.finished, none)
    else (.finished, some data)
  | .finished => (.finished, none)

/-- The task behind the handle at index `i` of `_futures` runs up to its next
checkpoint. Nothing happens when there is no such handle. -/
def taskStep (maxHeight : Int) (w : World) (i : Nat) : World :=
  match w.futures.get? i with
  | none => w
  | some f =>
    let r := workerStep maxHeight w.meshSize w.cancelThreads f.pos f.state
    { w with
      futures := w.futures.set i { f with state := r.1 }
      meshQueue :=
        match r.2 with
        | none => w.meshQueue
        | some data => w.meshQueue ++ [data] }

/-! ## Runs -/

/-- What can happen next: a call of the owning thread or a step of a worker. -/
inductive Action where
  | schedule (p : IVec3)
  | allowRe (p : IVec3)
  | pop
  | reset
  | frame
  | task (i : Nat)
deriving DecidableEq, Repr

/-- State after one action. -/
def step (maxHeight : Int) (w : World) : Action → World
  | .schedule p => (scheduleMeshExtraction w p).2
  | .allowRe p => (allowReExtraction w p).2
  | .pop => (pop w).2
  | .reset => reset w
  | .frame => onFrame w
  | .task i => taskStep maxHeight w i

/-- State after a sequence of actions. -/
def run (maxHeight : Int) (w : World) : List Action → World
  | [] => w
  | a :: as => run maxHeight (step maxHeight w a) as

/-- Whether `onFrame`, called in state `w`, completes a reset drain: the flag is
set and no handle is left once the ready handles at the front are erased. -/
def drainCompletes (w : World) : Bool :=
  w.cancelThreads && (cleanupFutures w.futures).isEmpty

/-- Whether action `a`, taken in state `w`, is neither an `allowReExtraction`
for a position of tile `t` nor an `onFrame` that completes a reset drain. -/
def keepsTile (t : IVec3) (w : World) : Action → Bool
  | .allowRe p => decide (getMeshPos w.meshSize p ≠ t)
  | .frame => !drainCompletes w
  | _ => true

/-- Whether every action of a run from `w` keeps tile `t` (see `keepsTile`). -/
def keepsTileAll (maxHeight : Int) (t : IVec3) (w : World) : List Action → Bool
  | [] => true
  | a :: as => keepsTile t w a && keepsTileAll maxHeight t (step maxHeight w a) as

/-- Whether an action is an `onFrame` call or a step of a worker task. -/
def Action.isFrameOrTask : Action → Bool
  | .frame => true
  | .task _ => true
  | _ => false

/-- A run that drains `n` handles during a reset: `n` times, the task behind
the first handle runs to its next checkpoint and `onFrame` is called; then
`onFrame` once more. -/
def drainRun : Nat → List Action
  | 0 => [Action.frame]
  | n + 1 => Action.task 0 :: Action.frame :: drainRun n

/-! ## Shutdown -/

/-- The wait loop of `World::shutdown`, `while (!_futures.empty()) cleanupFutures();`.
The first argument lists, for each pass of the loop, the indices of the handles
whose tasks run to their next checkpoint before that pass. The result is `none`
when the loop is still spinning after the listed worker steps are used up. -/
def shutdownWait (maxHeight : Int) : List (List Nat) → World → Option World
  | [], w => if w.futures.isEmpty then some w else none
  | r :: rest, w =>
    if w.futures.isEmpty then some w
    else
      let w1 := run maxHeight w (r.map Action.task)
      shutdownWait maxHeight rest { w1 with futures := cleanupFutures w1.futures }

/-- Body of `World::shutdown`: request cancellation, wait for the handles, clear
the dedup set and the delivery queue. The pager and the volume that it releases
are outside the state. -/
def shutdown (maxHeight : Int) (workers : List (List Nat)) (w : World) : Option World :=
  match shutdownWait maxHeight workers { w with cancelThreads := true } with
  | none => none
  | some w2 => some { w2 with meshesExtracted := ∅, meshQueue := [] }

/-! ## Queries -/

/-- Modelled from the spec: `voxel::VoxelType` of `voxel/polyvox/Voxel.h`, a file
that is not among the sources; the material of a voxel, its enumerators taken
as numbers. -/
abbrev VoxelType := Nat

/-- Modelled from the spec: `voxel::Voxel` of `voxel/polyvox/Voxel.h`, reduced to
its material. -/
structure Voxel where
  material : VoxelType
deriving DecidableEq, Repr

/-- Accessor `Voxel::getMaterial`. -/
def Voxel.getMaterial (v : Voxel) : VoxelType := v.material

/-- Modelled from the spec: `PagedVolume::Sampler` of `voxel/polyvox/PagedVolume.h`,
a file that is not among the sources; a position of the volume together with
the voxel stored there. -/
structure Sampler where
  position : IVec3
  voxel : Voxel
deriving DecidableEq, Repr

/-- Accessor `Sampler::getPosition`. -/
def Sampler.getPosition (s : Sampler) : IVec3 := s.position

/-- Accessor `Sampler::getVoxel`. -/
def Sampler.getVoxel (s : Sampler) : Voxel := s.voxel

/-- Result of a ray traversal, `RaycastResults::RaycastResult`. -/
inductive RaycastResult where
  | Completed
  | Interupted
deriving DecidableEq, Repr

/-- Modelled from the spec: `raycastWithDirection` of `voxel/polyvox/Raycast.h`,
a file that is not among the sources. The ray is given by the voxels it visits,
in visiting order; the callback is invoked on each of them and the traversal is
interrupted as soon as the callback returns false. What the callback captures
by reference is threaded through as its state. -/
def raycastWithDirection {σ : Type} (ray : List Sampler) (callback : σ → Sampler → Bool × σ)
    (captured : σ) : RaycastResult × σ :=
  match ray with
  | [] => (RaycastResult.Completed, captured)
  | sampler :: rest =>
    match callback captured sampler with
    | (true, captured1) => raycastWithDirection rest callback captured1
    | (false, captured1) => (RaycastResult.Interupted, captured1)

/-- The template `World::raycast(start, direction, maxDistance, callback)`:
whether the traversal was interrupted. -/
def raycastCallback {σ : Type} (ray : List Sampler) (callback : σ → Sampler → Bool × σ)
    (captured : σ) : Bool × σ :=
  let result := raycastWithDirection ray callback captured
  (decide (result.1 = RaycastResult.Interupted), result.2)

/-- Body of `World::raycast(start, direction, maxDistance, hit, voxel)`: the
returned flag and the final values of `hit` and `voxel`. `isBlocked` is the
material predicate of `voxel/polyvox/Voxel.h`. -/
def raycast (isBlocked : VoxelType → Bool) (ray : List Sampler) (hit : IVec3) (voxel : Voxel) :
    Bool × IVec3 × Voxel :=
  raycastCallback ray
    (fun (captured : IVec3 × Voxel) (sampler : Sampler) =>
      let voxel1 := sampler.getVoxel
      if isBlocked voxel1.getMaterial then
        (false, (sampler.getPosition, voxel1))
      else
        (true, (captured.1, voxel1)))
    (hit, voxel)

/-- Body of `World::findFloor`. `ray` lists the voxels visited by the ray from
`(x, MAX_HEIGHT, z)` straight down over the distance `MAX_HEIGHT`, and
`noFloorFound` is the constant `NO_FLOOR_FOUND` of `voxel/Constants.h`. -/
def findFloor (noFloorFound : Int) (ray : List Sampler) (check : VoxelType → Bool) : Int :=
  let y := noFloorFound
  (raycastCallback ray
    (fun (y1 : Int) (sampler : Sampler) =>
      if check sampler.getVoxel.getMaterial then
        (false, sampler.getPosition.y)
      else
        (true, y1))
    y).2

/-- Body of `World::findPath`: the returned flag and the final `listResult`.
`execute` stands for the run of `AStarPathfinder` (its source is not among the
sources): the path it writes to the result list, or `none` when it finds no
path or exceeds its iteration cap. -/
def findPath (execute : IVec3 → IVec3 → Option (List IVec3)) (start finish : IVec3)
    (listResult : List IVec3) : Bool × List IVec3 :=
  let listResult1 :=
    match execute start finish with
    | some path => path
    | none => listResult
  (true, listResult1)

/-- The loop of `World::randomPos`: the values of `lowestX`, `lowestZ`, `highestX`
and `highestZ` after the pass over `_meshesExtracted`. -/
def randomPosBounds (meshesExtracted : Finset IVec3) : Int × Int × Int × Int :=
  let lowestX := meshesExtracted.fold min (-100) (fun gridPos => gridPos.x)
  let lowestZ := meshesExtracted.fold min (-100) (fun gridPos => gridPos.z)
  let highestX := meshesExtracted.fold min 100 (fun gridPos => gridPos.x)
  let highestZ := meshesExtracted.fold min 100 (fun gridPos => gridPos.z)
  (lowestX, lowestZ, highestX, highestZ)

/-- Body of `World::randomPos`. `random` stands for `core::Random::random(min, max)`,
`column x z` for the voxels visited by the downward ray of `findFloor` at
`(x, z)`, and `isFloor` for the material predicate of that name. -/
def randomPos (random : Int → Int → Int) (noFloorFound : Int)
    (column : Int → Int → List Sampler) (isFloor : VoxelType → Bool) (w : World) : IVec3 :=
  let bounds := randomPosBounds w.meshesExtracted
  let x := random bounds.1 bounds.2.2.1
  let z := random bounds.2.1 bounds.2.2.2
  let y := findFloor noFloorFound (column x z) isFloor
  ⟨x, y, z⟩

/-! ## Bookkeeping for the invariants -/

/-- The state after construction and `init`, with the configured mesh size. -/
def World.initial (meshSize : Int) : World :=
  { meshSize := meshSize, meshQueue := [], meshesExtracted := ∅, futures := [],
    cancelThreads := false }

/-- Whether the task of a handle is outstanding: submitted and not finished. -/
def Future.outstanding (f : Future) : Bool := !f.ready

/-- The tiles for which `scheduleMeshExtraction` returned true in a run from `w`. -/
def scheduledTiles (maxHeight : Int) (w : World) : List Action → List IVec3
  | [] => []
  | a :: as =>
    (match a with
      | .schedule p =>
        if (scheduleMeshExtraction w p).1 then [getMeshPos w.meshSize p] else []
      | _ => []) ++ scheduledTiles maxHeight (step maxHeight w a) as

/-- The mesh pair that the task of tile `pos` pushes when none of its reads of
the flag sees it set. -/
def extractedMeshes (maxHeight meshSize : Int) (pos : IVec3) : ChunkMeshes :=
  let region := getMeshRegion maxHeight meshSize pos
  let vertices := region.getWidthInVoxels * region.getDepthInVoxels * 16
  let data := ChunkMeshes.create vertices vertices vertices vertices
  { opaqueMesh := extractCubicMesh region data.opaqueMesh
    waterMesh := extractCubicMesh region data.waterMesh }

/-- Whether the region and buffers held by a task of tile `pos` are the ones
that the task lambda computes for that tile. -/
def TaskState.consistent (maxHeight meshSize : Int) (pos : IVec3) : TaskState → Prop
  | .queued => True
  | .allocated region data =>
    workerStep maxHeight meshSize false pos TaskState.queued =
      (TaskState.allocated region data, none)
  | .solidExtracted region data =>
    region = getMeshRegion maxHeight meshSize pos ∧
    { data with waterMesh := extractCubicMesh region data.waterMesh } =
      extractedMeshes maxHeight meshSize pos
  | .waterExtracted _ data => data = extractedMeshes maxHeight meshSize pos
  | .finished => True

/-- The mesh pairs that the task of a handle has still to push if no reset
intervenes. -/
def Future.owed (maxHeight meshSize : Int) (f : Future) : List ChunkMeshes :=
  if f.ready then [] else [extractedMeshes maxHeight meshSize f.pos]

/-- Whether every `allowReExtraction` of a run from `w` is for a tile that has
no outstanding task at that moment. -/
def allowsOnlyIdleTiles (maxHeight : Int) (w : World) : List Action → Bool
  | [] => true
  | a :: as =>
    (match a with
      | .allowRe p =>
        w.futures.all (fun f => f.ready || decide (f.pos ≠ getMeshPos w.meshSize p))
      | _ => true) && allowsOnlyIdleTiles maxHeight (step maxHeight w a) as

/-- Calls of `scheduleMeshExtraction` on each position in turn: the returned
flags and the final state. -/
def scheduleAll (w : World) : List IVec3 → List Bool × World
  | [] => ([], w)
  | p :: ps =>
    let r := scheduleMeshExtraction w p
    let rest := scheduleAll r.2 ps
    (r.1 :: rest.1, rest.2)

/-- Whether an action is a step of a worker task. -/
def Action.isTask : Action → Bool
  | .task _ => true
  | _ => false

/-- A run in which the tasks of the handles `i`, `i + 1`, ..., `i + n - 1` run
one after the other, each through its four checkpoints. -/
def finishFrom (i : Nat) : Nat → List Action
  | 0 => []
  | n + 1 => List.replicate 4 (Action.task i) ++ finishFrom (i + 1) n

/-- Invariant behind the delivery queue: every queued mesh pair is the one of a
tile in `tiles`, and every handle is for a tile in `tiles` and holds the region
and buffers of that tile. -/
def World.traceable (maxHeight : Int) (tiles : List IVec3) (w : World) : Prop :=
  (∀ m ∈ w.meshQueue, ∃ t ∈ tiles, m = extractedMeshes maxHeight w.meshSize t) ∧
  (∀ f ∈ w.futures, f.pos ∈ tiles ∧ f.state.consistent maxHeight w.meshSize f.pos)

/-- Invariant behind the dedup set: the tiles of the outstanding tasks are
pairwise distinct and all in the dedup set. -/
def World.oneTaskPerTile (w : World) : Prop :=
  ((w.futures.filter Future.outstanding).map Future.pos).Nodup ∧
  (∀ f ∈ w.futures, f.outstanding = true → f.pos ∈ w.meshesExtracted)

/-! ## The task lambda as a whole, and the order of mesh pairs -/

/-- What one run of the task lambda did. -/
structure TaskTrace where
  /-- whether the region was computed and the buffers were allocated -/
  allocated : Bool
  /-- number of calls of `extractCubicMesh` that were made -/
  extractions : Nat
  /-- the mesh pairs pushed to `_meshQueue` -/
  pushed : List ChunkMeshes
deriving DecidableEq, Repr

/-- The task lambda enqueued by `scheduleMeshExtraction` for the tile `pos`, as
a function of the values `read1` to `read4` that its four reads of
`_cancelThreads` return. -/
def workerTask (maxHeight meshSize : Int) (pos : IVec3) (read1 read2 read3 read4 : Bool) :
    TaskTrace :=
  if read1 then
    ⟨false, 0, []⟩
  else
    let region := getMeshRegion maxHeight meshSize pos
    let solidFactor := 16
    let waterFactor := 16
    let solidVertices := region.getWidthInVoxels * region.getDepthInVoxels * solidFactor
    let waterVertices := region.getWidthInVoxels * region.getDepthInVoxels * waterFactor
    let data := ChunkMeshes.create solidVertices solidVertices waterVertices waterVertices
    if read2 then
      ⟨true, 0, []⟩
    else
      let data1 := { data with opaqueMesh := extractCubicMesh region data.opaqueMesh }
      if read3 then
        ⟨true, 1, []⟩
      else
        let data2 := { data1 with waterMesh := extractCubicMesh region data1.waterMesh }
        if read4 then
          ⟨true, 2, []⟩
        else
          ⟨true, 2, [data2]⟩

/-- The mesh pairs pushed by four successive `workerStep`s of a task that starts
in the state `queued`, the flag reading `read1` to `read4`. -/
def workerStepsPushed (maxHeight meshSize : Int) (pos : IVec3)
    (read1 read2 read3 read4 : Bool) : List ChunkMeshes :=
  let s1 := workerStep maxHeight meshSize read1 pos TaskState.queued
  let s2 := workerStep maxHeight meshSize read2 pos s1.1
  let s3 := workerStep maxHeight meshSize read3 pos s2.1
  let s4 := workerStep maxHeight meshSize read4 pos s3.1
  s1.2.toList ++ s2.2.toList ++ s3.2.toList ++ s4.2.toList

/-- Componentwise comparison `glm::lessThan` of two integer vectors. -/
def lessThan (a b : IVec3) : Bool × Bool × Bool :=
  (decide (a.x < b.x), decide (a.y < b.y), decide (a.z < b.z))

/-- Conjunction `glm::all` of a vector of booleans. -/
def all (v : Bool × Bool × Bool) : Bool := v.1 && v.2.1 && v.2.2

/-- Comparison `ChunkMeshes::operator<`. -/
def ChunkMeshes.lt (a rhs : ChunkMeshes) : Bool :=
  all (lessThan a.translation rhs.translation)

/-- A mesh pair with the given translation. -/
def meshesAt (offset : IVec3) : ChunkMeshes :=
  { opaqueMesh := ⟨offset, 0, 0⟩, waterMesh := ⟨offset, 0, 0⟩ }

/-! ## Example states -/

/-- A fresh world with mesh tiles of 16 voxels: nothing scheduled, no reset pending. -/
def freshWorld : World :=
  { meshSize := 16, meshQueue := [], meshesExtracted := ∅, futures := [], cancelThreads := false }

/-- A world in the middle of a reset whose two tasks have both returned. -/
def drainedWorld : World :=
  { meshSize := 16
    meshQueue := [ChunkMeshes.create 4096 4096 4096 4096]
    meshesExtracted := {⟨0, 0, 0⟩, ⟨16, 0, 0⟩}
    futures := [⟨⟨0, 0, 0⟩, TaskState.finished⟩, ⟨⟨16, 0, 0⟩, TaskState.finished⟩]
    cancelThreads := true }

/-- A world in the middle of a reset with one task that has not started. -/
def cancellingWorld : World :=
  { meshSize := 16
    meshQueue := []
    meshesExtracted := {⟨0, 0, 0⟩}
    futures := [⟨⟨0, 0, 0⟩, TaskState.queued⟩]
    cancelThreads := true }

/-- Two tiles are scheduled, the task of the second one runs to its end while
the first has not started, then `onFrame` is called. -/
def lateFirstTaskRun : List Action :=
  [Action.schedule ⟨0, 0, 0⟩, Action.schedule ⟨16, 0, 0⟩,
    Action.task 1, Action.task 1, Action.task 1, Action.task 1, Action.frame]

/-- The state that `lateFirstTaskRun` is in when it calls `onFrame`. -/
def lateFirstTaskWorld : World :=
  { meshSize := 16
    meshQueue := [⟨⟨⟨16, 0, 0⟩, 4096, 4096⟩, ⟨⟨16, 0, 0⟩, 4096, 4096⟩⟩]
    meshesExtracted := {⟨0, 0, 0⟩, ⟨16, 0, 0⟩}
    futures := [⟨⟨0, 0, 0⟩, TaskState.queued⟩, ⟨⟨16, 0, 0⟩, TaskState.finished⟩]
    cancelThreads := false }

/-- A downward ray through one voxel of material 0 and two of material 1. -/
def sampleRay : List Sampler :=
  [⟨⟨3, 5, 7⟩, ⟨0⟩⟩, ⟨⟨3, 4, 7⟩, ⟨1⟩⟩, ⟨⟨3, 3, 7⟩, ⟨1⟩⟩]

/-- A material predicate that holds of material 1 only. -/
def isMaterialOne (m : VoxelType) : Bool := decide (m = 1)

/-- A run in which one tile is scheduled and its task runs to its end; then the
mesh is popped, the tile is released and scheduled again. -/
def rescheduleRun : List Action :=
  [Action.schedule ⟨17, 3, -5⟩, Action.task 0, Action.task 0, Action.task 0, Action.task 0,
    Action.pop, Action.allowRe ⟨17, 3, -5⟩, Action.schedule ⟨20, 1, -1⟩]

/-- A run in which one tile is scheduled and its task runs to its end. -/
def deliverRun : List Action :=
  [Action.schedule ⟨17, 3, -5⟩, Action.task 0, Action.task 0, Action.task 0, Action.task 0]

/-- Worker steps that take two tasks through their four checkpoints, in turns. -/
def alternatingTasks : List Action :=
  [Action.task 0, Action.task 1, Action.task 1, Action.task 0, Action.task 0, Action.task 1,
    Action.task 1, Action.task 0]

/-- The state in which `shutdown` leaves a world of mesh size 16. -/
def shutDownWorld : World :=
  { meshSize := 16, meshQueue := [], meshesExtracted := ∅, futures := [], cancelThreads := true }

/-! ## Scheduling -/

/-- The two refusals of `scheduleMeshExtraction` taken together. -/
theorem scheduleMeshExtraction_eq (w : World) (p : IVec3) :
    scheduleMeshExtraction w p =
      if w.cancelThreads = true ∨ getMeshPos w.meshSize p ∈ w.meshesExtracted then
        (false, w)
      else
        (true, { w with
          meshesExtracted := insert (getMeshPos w.meshSize p) w.meshesExtracted
          futures := w.futures ++ [⟨getMeshPos w.meshSize p, TaskState.queued⟩] }) := by
  unfold scheduleMeshExtraction
  by_cases hc : w.cancelThreads = true
  · simp [hc]
  · by_cases hm : getMeshPos w.meshSize p ∈ w.meshesExtracted
    · simp [hc, hm]
    · simp [hc, hm]

/-- `scheduleMeshExtraction` refuses a position whose tile is in the dedup set
and then changes nothing. -/
theorem scheduleMeshExtraction_of_mem (w : World) (p : IVec3)
    (h : getMeshPos w.meshSize p ∈ w.meshesExtracted) :
    scheduleMeshExtraction w p = (false, w) := by
  rw [scheduleMeshExtraction_eq, if_pos (Or.inr h)]

/-- When `scheduleMeshExtraction` returns true the flag was clear, the tile was
new, and the state afterwards has the tile and one more handle. -/
theorem scheduleMeshExtraction_of_true (w : World) (p : IVec3)
    (h : (scheduleMeshExtraction w p).1 = true) :
    w.cancelThreads = false ∧ getMeshPos w.meshSize p ∉ w.meshesExtracted ∧
    (scheduleMeshExtraction w p).2 = { w with
      meshesExtracted := insert (getMeshPos w.meshSize p) w.meshesExtracted
      futures := w.futures ++ [⟨getMeshPos w.meshSize p, TaskState.queued⟩] } := by
  rw [scheduleMeshExtraction_eq] at h ⊢
  by_cases hc : w.cancelThreads = true ∨ getMeshPos w.meshSize p ∈ w.meshesExtracted
  · rw [if_pos hc] at h
    exact absurd h (by simp)
  · rw [if_neg hc]
    refine ⟨?_, fun hm => hc (Or.inr hm), rfl⟩
    cases hw : w.cancelThreads
    · rfl
    · exact absurd (Or.inl hw) hc

/-- C1: `scheduleMeshExtraction p` returns false exactly when the cancellation
flag is set or the tile of `p` is already in the dedup set, and whenever it
returns false the state (dedup set, task handles, delivery queue, flag) is the
one before the call, so no task was submitted. -/
theorem scheduleMeshExtraction_false_iff (w : World) (p : IVec3) :
    ((scheduleMeshExtraction w p).1 = false ↔
      (w.cancelThreads = true ∨ getMeshPos w.meshSize p ∈ w.meshesExtracted)) ∧
    ((scheduleMeshExtraction w p).1 = false → (scheduleMeshExtraction w p).2 = w) := by
  unfold scheduleMeshExtraction
  by_cases hc : w.cancelThreads = true
  · simp [hc]
  · by_cases hm : getMeshPos w.meshSize p ∈ w.meshesExtracted
    · simp [hc, hm]
    · simp [hc, hm]

/-- C2: with the flag clear and the tile of `p` not in the dedup set,
`scheduleMeshExtraction p` returns true, the dedup set gains exactly that tile,
one handle of a queued task for that tile is appended to the handles, and the
flag, the delivery queue and the mesh size stay as they were. -/
theorem scheduleMeshExtraction_fresh_tile (w : World) (p : IVec3)
    (hc : w.cancelThreads = false)
    (hm : getMeshPos w.meshSize p ∉ w.meshesExtracted) :
    (scheduleMeshExtraction w p).1 = true ∧
    (scheduleMeshExtraction w p).2.meshesExtracted =
      insert (getMeshPos w.meshSize p) w.meshesExtracted ∧
    (scheduleMeshExtraction w p).2.futures =
      w.futures ++ [⟨getMeshPos w.meshSize p, TaskState.queued⟩] ∧
    (scheduleMeshExtraction w p).2.futures.length = w.futures.length + 1 ∧
    (scheduleMeshExtraction w p).2.cancelThreads = w.cancelThreads ∧
    (scheduleMeshExtraction w p).2.meshQueue = w.meshQueue ∧
    (scheduleMeshExtraction w p).2.meshSize = w.meshSize := by
  unfold scheduleMeshExtraction
  simp [hc, hm]

/-! ## Permitting a new extraction -/

/-- C4: `allowReExtraction p` returns true exactly when the tile of `p` was in
the dedup set; afterwards the dedup set is the old one without that tile, every
other tile keeps its membership, and the handles, the delivery queue and the
flag are unchanged. -/
theorem allowReExtraction_erases_tile (w : World) (p : IVec3) :
    ((allowReExtraction w p).1 = true ↔ getMeshPos w.meshSize p ∈ w.meshesExtracted) ∧
    (allowReExtraction w p).2.meshesExtracted =
      w.meshesExtracted.erase (getMeshPos w.meshSize p) ∧
    getMeshPos w.meshSize p ∉ (allowReExtraction w p).2.meshesExtracted ∧
    (∀ t : IVec3, t ≠ getMeshPos w.meshSize p →
      (t ∈ (allowReExtraction w p).2.meshesExtracted ↔ t ∈ w.meshesExtracted)) ∧
    (allowReExtraction w p).2.futures = w.futures ∧
    (allowReExtraction w p).2.meshQueue = w.meshQueue ∧
    (allowReExtraction w p).2.cancelThreads = w.cancelThreads := by
  unfold allowReExtraction
  refine ⟨by simp, rfl, by simp, ?_, rfl, rfl, rfl⟩
  intro t ht
  simp [ht]

/-- C5: two calls of `allowReExtraction p` in a row: the second returns false
and leaves the state that the first call produced. -/
theorem allowReExtraction_twice (w : World) (p : IVec3) :
    (allowReExtraction (allowReExtraction w p).2 p).1 = false ∧
    (allowReExtraction (allowReExtraction w p).2 p).2 = (allowReExtraction w p).2 := by
  unfold allowReExtraction
  simp

/-! ## Reset -/

/-- C8: `reset` changes nothing but the cancellation flag, which it sets: the
dedup set, the handles and the delivery queue are unchanged, and when the flag
is already set the state after `reset` is the state before. -/
theorem reset_sets_only_flag (w : World) :
    (reset w).cancelThreads = true ∧
    (reset w).meshesExtracted = w.meshesExtracted ∧
    (reset w).futures = w.futures ∧
    (reset w).meshQueue = w.meshQueue ∧
    (reset w).meshSize = w.meshSize ∧
    reset (reset w) = reset w ∧
    (w.cancelThreads = true → reset w = w) := by
  refine ⟨rfl, rfl, rfl, rfl, rfl, rfl, ?_⟩
  intro h
  cases w
  simp_all [reset]

/-! ## Reaping handles -/

/-- The loop of `cleanupFutures` drops the longest run of ready handles at the front. -/
theorem cleanupFutures_eq_dropWhile (l : List Future) :
    cleanupFutures l = l.dropWhile Future.ready := by
  induction l with
  | nil => rfl
  | cons f fs ih =>
    by_cases h : f.ready = true
    · simp [cleanupFutures, List.dropWhile, h, ih]
    · simp [cleanupFutures, List.dropWhile, h]

/-- When every handle is ready, `cleanupFutures` erases them all. -/
theorem cleanupFutures_all_ready (l : List Future) (h : ∀ f ∈ l, f.ready = true) :
    cleanupFutures l = [] := by
  induction l with
  | nil => rfl
  | cons f fs ih =>
    have hf : f.ready = true := h f (List.mem_cons_self f fs)
    have hfs : ∀ g ∈ fs, g.ready = true := fun g hg => h g (List.mem_cons_of_mem f hg)
    simp [cleanupFutures, hf, ih hfs]

/-- After `cleanupFutures` the first handle, if there is one, is not ready. -/
theorem cleanupFutures_head_not_ready (l : List Future) (f : Future)
    (h : (cleanupFutures l).head? = some f) : f.ready = false := by
  induction l with
  | nil => simp [cleanupFutures] at h
  | cons g gs ih =>
    by_cases hg : g.ready = true
    · simp only [cleanupFutures, hg, if_true] at h
      exact ih h
    · simp only [cleanupFutures, hg] at h
      simp at h
      subst h
      simpa using hg

/-- The handles before and after `cleanupFutures` differ by ready handles at the front. -/
theorem cleanupFutures_split (l : List Future) :
    l = l.takeWhile Future.ready ++ cleanupFutures l := by
  rw [cleanupFutures_eq_dropWhile, List.takeWhile_append_dropWhile]

/-- State after `onFrame` in terms of the reaped handles. -/
theorem onFrame_eq (w : World) :
    onFrame w =
      if w.cancelThreads = true ∧ cleanupFutures w.futures = [] then
        { w with futures := [], meshesExtracted := ∅, meshQueue := [], cancelThreads := false }
      else
        { w with futures := cleanupFutures w.futures } := by
  unfold onFrame
  by_cases hc : w.cancelThreads = true
  · by_cases he : cleanupFutures w.futures = []
    · simp [hc, he]
    · simp [hc, he]
  · simp [hc]

/-- C6: with the flag set and every handle ready (or no handle at all), one
`onFrame` leaves the dedup set, the delivery queue and the handles empty and
clears the flag, so `isReset` returns false. -/
theorem onFrame_completes_drain (w : World)
    (hc : w.cancelThreads = true)
    (hf : ∀ f ∈ w.futures, f.ready = true) :
    (onFrame w).meshesExtracted = ∅ ∧
    (onFrame w).meshQueue = [] ∧
    (onFrame w).futures = [] ∧
    (onFrame w).cancelThreads = false ∧
    isReset (onFrame w) = false := by
  have he : cleanupFutures w.futures = [] := cleanupFutures_all_ready w.futures hf
  rw [onFrame_eq]
  simp [hc, he, isReset]

/-- C10, as the code has it: `onFrame` erases the ready handles at the front of
the handles. The handles afterwards are the old ones from the first handle that
is not ready onwards, so the first handle left (if any) is not ready, the
erased handles were all ready, and the pending count of `stats` is the number
of handles from the first unready one onwards. -/
theorem onFrame_reaps_leading_ready (w : World) :
    (onFrame w).futures = w.futures.dropWhile Future.ready ∧
    w.futures = w.futures.takeWhile Future.ready ++ (onFrame w).futures ∧
    (∀ f ∈ w.futures.takeWhile Future.ready, f.ready = true) ∧
    (∀ f, (onFrame w).futures.head? = some f → f.ready = false) ∧
    (stats (onFrame w)).2.2 = ((w.futures.dropWhile Future.ready).length : Int) := by
  have hfut : (onFrame w).futures = cleanupFutures w.futures := by
    rw [onFrame_eq]
    by_cases h : w.cancelThreads = true ∧ cleanupFutures w.futures = []
    · simp [h]
    · simp [h]
  refine ⟨?_, ?_, ?_, ?_, ?_⟩
  · rw [hfut, cleanupFutures_eq_dropWhile]
  · rw [hfut]
    exact cleanupFutures_split w.futures
  · intro f hf
    exact List.mem_takeWhile_imp hf
  · intro f hf
    rw [hfut] at hf
    exact cleanupFutures_head_not_ready w.futures f hf
  · simp [stats, hfut, cleanupFutures_eq_dropWhile]

/-- C10, counterexample: two tiles are scheduled and the task of the second one
finishes before the first has started. `onFrame` then leaves both handles,
the second of which belongs to a finished task, and `stats` reports two
pending handles although one task is unfinished. -/
theorem onFrame_leaves_finished_handle :
    (run 128 freshWorld lateFirstTaskRun).futures = (onFrame lateFirstTaskWorld).futures ∧
    (onFrame lateFirstTaskWorld).futures =
      [⟨⟨0, 0, 0⟩, TaskState.queued⟩, ⟨⟨16, 0, 0⟩, TaskState.finished⟩] ∧
    (stats (onFrame lateFirstTaskWorld)).2.2 = 2 ∧
    ¬ (∀ w : World, ∀ f ∈ (onFrame w).futures, f.ready = false) := by
  refine ⟨by decide, by decide, by decide, ?_⟩
  intro h
  have h2 := h lateFirstTaskWorld ⟨⟨16, 0, 0⟩, TaskState.finished⟩ (by decide)
  exact absurd h2 (by decide)

/-! ## The cancellation flag -/

/-- A worker step leaves the cancellation flag alone. -/
theorem taskStep_cancelThreads (maxHeight : Int) (w : World) (i : Nat) :
    (taskStep maxHeight w i).cancelThreads = w.cancelThreads := by
  unfold taskStep
  cases w.futures.get? i <;> rfl

/-- A worker step leaves the dedup set alone. -/
theorem taskStep_meshesExtracted (maxHeight : Int) (w : World) (i : Nat) :
    (taskStep maxHeight w i).meshesExtracted = w.meshesExtracted := by
  unfold taskStep
  cases w.futures.get? i <;> rfl

/-- Scheduling never changes the cancellation flag. -/
theorem scheduleMeshExtraction_cancelThreads (w : World) (p : IVec3) :
    (scheduleMeshExtraction w p).2.cancelThreads = w.cancelThreads := by
  unfold scheduleMeshExtraction
  by_cases hc : w.cancelThreads = true
  · simp [hc]
  · by_cases hm : getMeshPos w.meshSize p ∈ w.meshesExtracted
    · simp [hc, hm]
    · simp [hc, hm]

/-- Popping changes nothing but the delivery queue. -/
theorem pop_frame (w : World) :
    (pop w).2.cancelThreads = w.cancelThreads ∧
    (pop w).2.meshesExtracted = w.meshesExtracted ∧
    (pop w).2.futures = w.futures ∧
    (pop w).2.meshSize = w.meshSize := by
  unfold pop
  cases w.meshQueue <;> simp

/-- The flag after `onFrame` is clear only if it was clear before or no handle
is left after reaping. -/
theorem onFrame_cancelThreads_false_iff (w : World) (hc : w.cancelThreads = true) :
    (onFrame w).cancelThreads = false ↔ cleanupFutures w.futures = [] := by
  rw [onFrame_eq]
  by_cases he : cleanupFutures w.futures = []
  · simp [hc, he]
  · simp [hc, he]

/-- C7: in a state with the cancellation flag set, `scheduleMeshExtraction`,
`allowReExtraction`, `pop`, `reset` and a worker step all leave the flag set
(`stats` and `isReset` only read the state, and `isReset` reports the flag);
`onFrame` clears it exactly when no handle is left after reaping. So the only
action after which the flag is clear is an `onFrame` whose handles are empty
after reaping. -/
theorem cancelling_left_only_by_onFrame (maxHeight : Int) (w : World)
    (hc : w.cancelThreads = true) :
    (∀ p, (scheduleMeshExtraction w p).2.cancelThreads = true) ∧
    (∀ p, (allowReExtraction w p).2.cancelThreads = true) ∧
    (pop w).2.cancelThreads = true ∧
    (reset w).cancelThreads = true ∧
    (∀ i, (taskStep maxHeight w i).cancelThreads = true) ∧
    isReset w = true ∧
    ((onFrame w).cancelThreads = false ↔ cleanupFutures w.futures = []) ∧
    (∀ a, (step maxHeight w a).cancelThreads = false →
      a = Action.frame ∧ cleanupFutures w.futures = []) := by
  have h1 : ∀ p, (scheduleMeshExtraction w p).2.cancelThreads = true := fun p => by
    rw [scheduleMeshExtraction_cancelThreads, hc]
  have h2 : ∀ p, (allowReExtraction w p).2.cancelThreads = true := fun p => hc
  have h3 : (pop w).2.cancelThreads = true := by rw [(pop_frame w).1, hc]
  have h5 : ∀ i, (taskStep maxHeight w i).cancelThreads = true := fun i => by
    rw [taskStep_cancelThreads, hc]
  have h7 := onFrame_cancelThreads_false_iff w hc
  refine ⟨h1, h2, h3, rfl, h5, hc, h7, ?_⟩
  intro a ha
  cases a with
  | schedule p => simp [step, h1 p] at ha
  | allowRe p => simp [step, h2 p] at ha
  | pop => simp [step, h3] at ha
  | reset => simp [step, reset] at ha
  | frame => exact ⟨rfl, h7.mp ha⟩
  | task i => simp [step, h5 i] at ha

/-! ## A scheduled tile stays blocked -/

/-- No action changes the mesh size. -/
theorem step_meshSize (maxHeight : Int) (w : World) (a : Action) :
    (step maxHeight w a).meshSize = w.meshSize := by
  cases a with
  | schedule p =>
    simp only [step, scheduleMeshExtraction]
    by_cases hc : w.cancelThreads = true
    · simp [hc]
    · by_cases hm : getMeshPos w.meshSize p ∈ w.meshesExtracted
      · simp [hc, hm]
      · simp [hc, hm]
  | allowRe p => rfl
  | pop => exact (pop_frame w).2.2.2
  | reset => rfl
  | frame =>
    simp only [step]
    rw [onFrame_eq]
    split <;> rfl
  | task i =>
    simp only [step, taskStep]
    cases w.futures.get? i <;> rfl

/-- No run changes the mesh size. -/
theorem run_meshSize (maxHeight : Int) (as : List Action) (w : World) :
    (run maxHeight w as).meshSize = w.meshSize := by
  induction as generalizing w with
  | nil => rfl
  | cons a as ih => rw [run, ih, step_meshSize]

/-- A tile of the dedup set is still there after an action that is neither an
`allowReExtraction` for it nor an `onFrame` completing a reset drain. -/
theorem step_keeps_tile (maxHeight : Int) (t : IVec3) (w : World) (a : Action)
    (ht : t ∈ w.meshesExtracted) (hk : keepsTile t w a = true) :
    t ∈ (step maxHeight w a).meshesExtracted := by
  cases a with
  | schedule p =>
    simp only [step, scheduleMeshExtraction]
    by_cases hc : w.cancelThreads = true
    · simpa [hc] using ht
    · by_cases hm : getMeshPos w.meshSize p ∈ w.meshesExtracted
      · simpa [hc, hm] using ht
      · simp [hc, hm, ht]
  | allowRe p =>
    have hne : getMeshPos w.meshSize p ≠ t := by simpa [keepsTile] using hk
    simp only [step, allowReExtraction]
    exact Finset.mem_erase.mpr ⟨fun h => hne h.symm, ht⟩
  | pop =>
    simp only [step]
    rw [(pop_frame w).2.1]
    exact ht
  | reset => exact ht
  | frame =>
    have hd : drainCompletes w = false := by simpa [keepsTile] using hk
    have hcond : ¬ (w.cancelThreads = true ∧ cleanupFutures w.futures = []) := by
      intro h
      simp [drainCompletes, h.1, h.2] at hd
    simp only [step]
    rw [onFrame_eq, if_neg hcond]
    exact ht
  | task i =>
    simp only [step]
    rw [taskStep_meshesExtracted]
    exact ht

/-- A tile of the dedup set is still there after a run without an
`allowReExtraction` for it and without an `onFrame` completing a reset drain. -/
theorem run_keeps_tile (maxHeight : Int) (t : IVec3) (as : List Action) (w : World)
    (ht : t ∈ w.meshesExtracted) (hk : keepsTileAll maxHeight t w as = true) :
    t ∈ (run maxHeight w as).meshesExtracted := by
  induction as generalizing w with
  | nil => exact ht
  | cons a as ih =>
    simp only [keepsTileAll, Bool.and_eq_true] at hk
    exact ih (step maxHeight w a) (step_keeps_tile maxHeight t w a ht hk.1) hk.2

/-- C3: once `scheduleMeshExtraction p` has returned true, a later
`scheduleMeshExtraction q` for a position `q` of the same tile returns false,
and changes nothing, after every run of schedule, allow, pop, reset, onFrame
and worker steps that contains no `allowReExtraction` for that tile and no
`onFrame` completing a reset drain; in particular directly after the first
call. -/
theorem scheduled_tile_stays_blocked (maxHeight : Int) (w : World) (p q : IVec3)
    (as : List Action)
    (hs : (scheduleMeshExtraction w p).1 = true)
    (hk : keepsTileAll maxHeight (getMeshPos w.meshSize p)
      (scheduleMeshExtraction w p).2 as = true)
    (hq : getMeshPos w.meshSize q = getMeshPos w.meshSize p) :
    (scheduleMeshExtraction (run maxHeight (scheduleMeshExtraction w p).2 as) q).1 = false ∧
    (scheduleMeshExtraction (run maxHeight (scheduleMeshExtraction w p).2 as) q).2 =
      run maxHeight (scheduleMeshExtraction w p).2 as ∧
    (scheduleMeshExtraction (scheduleMeshExtraction w p).2 q).1 = false := by
  obtain ⟨_, _, hst⟩ := scheduleMeshExtraction_of_true w p hs
  have hin : getMeshPos w.meshSize p ∈ (scheduleMeshExtraction w p).2.meshesExtracted := by
    rw [hst]
    exact Finset.mem_insert_self _ _
  have hsize : (scheduleMeshExtraction w p).2.meshSize = w.meshSize := by
    rw [hst]
  have hblocked : ∀ bs : List Action,
      keepsTileAll maxHeight (getMeshPos w.meshSize p) (scheduleMeshExtraction w p).2 bs = true →
      scheduleMeshExtraction (run maxHeight (scheduleMeshExtraction w p).2 bs) q =
        (false, run maxHeight (scheduleMeshExtraction w p).2 bs) := by
    intro bs hbs
    have hrun := run_keeps_tile maxHeight _ bs _ hin hbs
    apply scheduleMeshExtraction_of_mem
    rw [run_meshSize, hsize, hq]
    exact hrun
  have h1 := hblocked as hk
  have h2 := hblocked [] rfl
  refine ⟨by rw [h1], by rw [h1], ?_⟩
  simp only [run] at h2
  rw [h2]

/-! ## Round trip through a reset -/

/-- With the flag set a worker returns at its next checkpoint and pushes nothing. -/
theorem workerStep_cancelled (maxHeight meshSize : Int) (pos : IVec3) (st : TaskState) :
    workerStep maxHeight meshSize true pos st = (TaskState.finished, none) := by
  cases st <;> rfl

/-- Reaping never adds a handle. -/
theorem cleanupFutures_length_le (l : List Future) :
    (cleanupFutures l).length ≤ l.length := by
  rw [cleanupFutures_eq_dropWhile]
  exact (List.dropWhile_sublist Future.ready).length_le

/-- With the flag clear and no handle, an `onFrame` call or a worker step
changes nothing. -/
theorem frameOrTask_step_idle (maxHeight : Int) (w : World) (a : Action)
    (ha : a.isFrameOrTask = true) (hc : w.cancelThreads = false) (hf : w.futures = []) :
    step maxHeight w a = w := by
  cases a with
  | schedule p => simp [Action.isFrameOrTask] at ha
  | allowRe p => simp [Action.isFrameOrTask] at ha
  | pop => simp [Action.isFrameOrTask] at ha
  | reset => simp [Action.isFrameOrTask] at ha
  | frame =>
    simp only [step]
    rw [onFrame_eq]
    cases w
    simp_all [cleanupFutures]
  | task i =>
    have hnone : w.futures.get? i = none := by simp [hf]
    simp only [step, taskStep, hnone]

/-- With the flag clear and no handle, a run of `onFrame` calls and worker
steps changes nothing. -/
theorem frameOrTask_run_idle (maxHeight : Int) (as : List Action) (w : World)
    (ha : ∀ a ∈ as, a.isFrameOrTask = true) (hc : w.cancelThreads = false)
    (hf : w.futures = []) :
    run maxHeight w as = w := by
  induction as with
  | nil => rfl
  | cons a as ih =>
    simp only [run]
    rw [frameOrTask_step_idle maxHeight w a (ha a (List.mem_cons_self a as)) hc hf]
    exact ih (fun b hb => ha b (List.mem_cons_of_mem a hb))

/-- During a reset, or in a state that a completed reset leaves behind, an
`onFrame` call or a worker step leads to another such state. -/
theorem frameOrTask_step_resetting (maxHeight : Int) (w : World) (a : Action)
    (ha : a.isFrameOrTask = true)
    (h : w.cancelThreads = true ∨
      (w.cancelThreads = false ∧ w.meshesExtracted = ∅ ∧ w.meshQueue = [] ∧ w.futures = [])) :
    (step maxHeight w a).cancelThreads = true ∨
      ((step maxHeight w a).cancelThreads = false ∧ (step maxHeight w a).meshesExtracted = ∅ ∧
        (step maxHeight w a).meshQueue = [] ∧ (step maxHeight w a).futures = []) := by
  cases a with
  | schedule p => simp [Action.isFrameOrTask] at ha
  | allowRe p => simp [Action.isFrameOrTask] at ha
  | pop => simp [Action.isFrameOrTask] at ha
  | reset => simp [Action.isFrameOrTask] at ha
  | frame =>
    simp only [step]
    rw [onFrame_eq]
    rcases h with hc | ⟨hc, hm, hq, hf⟩
    · by_cases he : cleanupFutures w.futures = []
      · right
        simp [hc, he]
      · left
        simp [hc, he]
    · right
      simp [hc, hm, hq, hf, cleanupFutures]
  | task i =>
    simp only [step]
    rcases h with hc | ⟨hc, hm, hq, hf⟩
    · left
      rw [taskStep_cancelThreads, hc]
    · right
      have hnone : w.futures.get? i = none := by simp [hf]
      simp only [taskStep, hnone]
      exact ⟨hc, hm, hq, hf⟩

/-- The same for a run of `onFrame` calls and worker steps. -/
theorem frameOrTask_run_resetting (maxHeight : Int) (as : List Action) (w : World)
    (ha : ∀ a ∈ as, a.isFrameOrTask = true)
    (h : w.cancelThreads = true ∨
      (w.cancelThreads = false ∧ w.meshesExtracted = ∅ ∧ w.meshQueue = [] ∧ w.futures = [])) :
    (run maxHeight w as).cancelThreads = true ∨
      ((run maxHeight w as).cancelThreads = false ∧ (run maxHeight w as).meshesExtracted = ∅ ∧
        (run maxHeight w as).meshQueue = [] ∧ (run maxHeight w as).futures = []) := by
  induction as generalizing w with
  | nil => exact h
  | cons a as ih =>
    simp only [run]
    apply ih
    · intro b hb
      exact ha b (List.mem_cons_of_mem a hb)
    · exact frameOrTask_step_resetting maxHeight w a (ha a (List.mem_cons_self a as)) h

/-- Every action of `drainRun` is an `onFrame` call or a worker step. -/
theorem drainRun_isFrameOrTask (n : Nat) : ∀ a ∈ drainRun n, a.isFrameOrTask = true := by
  induction n with
  | zero =>
    intro a ha
    simp [drainRun] at ha
    subst ha
    rfl
  | succ n ih =>
    intro a ha
    simp only [drainRun, List.mem_cons] at ha
    rcases ha with rfl | rfl | ha
    · rfl
    · rfl
    · exact ih a ha

/-- During a reset with at most `n` handles, `drainRun n` ends with the flag clear. -/
theorem drainRun_clears_flag (maxHeight : Int) (n : Nat) (w : World)
    (hc : w.cancelThreads = true) (hn : w.futures.length ≤ n) :
    (run maxHeight w (drainRun n)).cancelThreads = false := by
  induction n generalizing w with
  | zero =>
    have hf : w.futures = [] := List.length_eq_zero.mp (Nat.le_zero.mp hn)
    simp only [drainRun, run, step]
    rw [onFrame_eq]
    simp [hc, hf, cleanupFutures]
  | succ n ih =>
    simp only [drainRun, run, step]
    have hc1 : (taskStep maxHeight w 0).cancelThreads = true := by
      rw [taskStep_cancelThreads, hc]
    have hlen : (cleanupFutures (taskStep maxHeight w 0).futures).length ≤ n := by
      cases hfs : w.futures with
      | nil =>
        simp [taskStep, hfs, cleanupFutures]
      | cons f fs =>
        have hfl : fs.length ≤ n := by
          rw [hfs] at hn
          simpa using hn
        simp only [taskStep, hfs, List.get?, hc, workerStep_cancelled, List.set]
        simp only [cleanupFutures, Future.ready, if_true]
        exact le_trans (cleanupFutures_length_le fs) hfl
    by_cases he : cleanupFutures (taskStep maxHeight w 0).futures = []
    · rw [frameOrTask_run_idle maxHeight (drainRun n) _ (drainRun_isFrameOrTask n)]
      · exact (onFrame_cancelThreads_false_iff _ hc1).mpr he
      · exact (onFrame_cancelThreads_false_iff _ hc1).mpr he
      · rw [onFrame_eq]
        simp [hc1, he]
    · apply ih
      · rw [onFrame_eq]
        simp [hc1, he]
      · rw [onFrame_eq]
        simp [hc1, he]
        exact hlen

set_option linter.unusedVariables false in
/-- C9: from an active state, after `scheduleMeshExtraction p` returned true and
`reset` was called, every run of `onFrame` calls and worker steps that ends
with `isReset` false ends with an empty dedup set and an empty delivery queue,
and `scheduleMeshExtraction` for a position of the same tile returns true
again; and such a run exists. -/
theorem reset_round_trip (maxHeight : Int) (w : World) (p : IVec3)
    (h0 : isReset w = false)
    (hs : (scheduleMeshExtraction w p).1 = true) :
    (∀ as : List Action, (∀ a ∈ as, a.isFrameOrTask = true) →
      isReset (run maxHeight (reset (scheduleMeshExtraction w p).2) as) = false →
        (run maxHeight (reset (scheduleMeshExtraction w p).2) as).meshesExtracted = ∅ ∧
        (run maxHeight (reset (scheduleMeshExtraction w p).2) as).meshQueue = [] ∧
        ∀ q, getMeshPos w.meshSize q = getMeshPos w.meshSize p →
          (scheduleMeshExtraction
            (run maxHeight (reset (scheduleMeshExtraction w p).2) as) q).1 = true) ∧
    (∃ as : List Action, (∀ a ∈ as, a.isFrameOrTask = true) ∧
      isReset (run maxHeight (reset (scheduleMeshExtraction w p).2) as) = false) := by
  constructor
  · intro as hall hdone
    have hinv := frameOrTask_run_resetting maxHeight as (reset (scheduleMeshExtraction w p).2)
      hall (Or.inl rfl)
    simp only [isReset] at hdone
    rcases hinv with hc | ⟨hc, hm, hq, _⟩
    · rw [hdone] at hc
      exact absurd hc (by decide)
    · refine ⟨hm, hq, ?_⟩
      intro q _
      rw [scheduleMeshExtraction_eq, if_neg]
      rw [hc, hm]
      simp
  · refine ⟨drainRun (reset (scheduleMeshExtraction w p).2).futures.length,
      drainRun_isFrameOrTask _, ?_⟩
    exact drainRun_clears_flag maxHeight _ _ rfl (le_refl _)

/-! ## The properties at concrete states -/

/-- C1 at a state in the middle of a reset: the call is refused and changes nothing. -/
theorem scheduleMeshExtraction_false_iff_witness :
    (scheduleMeshExtraction cancellingWorld ⟨40, 0, 0⟩).1 = false ∧
    (scheduleMeshExtraction cancellingWorld ⟨40, 0, 0⟩).2 = cancellingWorld :=
  ⟨by decide, (scheduleMeshExtraction_false_iff cancellingWorld ⟨40, 0, 0⟩).2 (by decide)⟩

/-- C2 at the fresh world: position (17, 3, -5) lies in tile (16, 0, -16). -/
theorem scheduleMeshExtraction_fresh_tile_witness :
    freshWorld.cancelThreads = false ∧
    getMeshPos freshWorld.meshSize ⟨17, 3, -5⟩ ∉ freshWorld.meshesExtracted ∧
    (scheduleMeshExtraction freshWorld ⟨17, 3, -5⟩).1 = true ∧
    (scheduleMeshExtraction freshWorld ⟨17, 3, -5⟩).2.futures =
      freshWorld.futures ++ [⟨getMeshPos freshWorld.meshSize ⟨17, 3, -5⟩, TaskState.queued⟩] ∧
    getMeshPos freshWorld.meshSize ⟨17, 3, -5⟩ = ⟨16, 0, -16⟩ :=
  ⟨by decide, by decide,
    (scheduleMeshExtraction_fresh_tile freshWorld ⟨17, 3, -5⟩ (by decide) (by decide)).1,
    (scheduleMeshExtraction_fresh_tile freshWorld ⟨17, 3, -5⟩ (by decide) (by decide)).2.2.1,
    by decide⟩

/-- C3 at the fresh world: after tile (16, 0, -16) is scheduled, a run with
another schedule, worker steps, a pop, a reset, an `onFrame` that cannot drain
yet and an `allowReExtraction` for another tile leaves the tile blocked. -/
theorem scheduled_tile_stays_blocked_witness :
    (scheduleMeshExtraction freshWorld ⟨17, 3, -5⟩).1 = true ∧
    getMeshPos freshWorld.meshSize ⟨20, 1, -1⟩ = getMeshPos freshWorld.meshSize ⟨17, 3, -5⟩ ∧
    (scheduleMeshExtraction (run 128 (scheduleMeshExtraction freshWorld ⟨17, 3, -5⟩).2
      [Action.schedule ⟨100, 0, 0⟩, Action.task 0, Action.pop, Action.reset, Action.frame,
        Action.allowRe ⟨100, 0, 0⟩, Action.task 0, Action.task 1]) ⟨20, 1, -1⟩).1 = false :=
  ⟨by decide, by decide,
    (scheduled_tile_stays_blocked 128 freshWorld ⟨17, 3, -5⟩ ⟨20, 1, -1⟩
      [Action.schedule ⟨100, 0, 0⟩, Action.task 0, Action.pop, Action.reset, Action.frame,
        Action.allowRe ⟨100, 0, 0⟩, Action.task 0, Action.task 1]
      (by decide) (by decide) (by decide)).1⟩

/-- C4 at a state with two tiles: releasing tile (0, 0, 0) keeps tile (16, 0, 0). -/
theorem allowReExtraction_erases_tile_witness :
    (⟨16, 0, 0⟩ : IVec3) ≠ getMeshPos drainedWorld.meshSize ⟨3, 3, 3⟩ ∧
    (allowReExtraction drainedWorld ⟨3, 3, 3⟩).1 = true ∧
    ((⟨16, 0, 0⟩ : IVec3) ∈ (allowReExtraction drainedWorld ⟨3, 3, 3⟩).2.meshesExtracted ↔
      (⟨16, 0, 0⟩ : IVec3) ∈ drainedWorld.meshesExtracted) :=
  ⟨by decide, by decide,
    (allowReExtraction_erases_tile drainedWorld ⟨3, 3, 3⟩).2.2.2.1 ⟨16, 0, 0⟩ (by decide)⟩

/-- C6 at a state in the middle of a reset whose two tasks have returned. -/
theorem onFrame_completes_drain_witness :
    drainedWorld.cancelThreads = true ∧
    (∀ f ∈ drainedWorld.futures, f.ready = true) ∧
    (onFrame drainedWorld).meshesExtracted = ∅ ∧
    (onFrame drainedWorld).meshQueue = [] ∧
    (onFrame drainedWorld).futures = [] ∧
    (onFrame drainedWorld).cancelThreads = false ∧
    isReset (onFrame drainedWorld) = false :=
  ⟨by decide, by decide, onFrame_completes_drain drainedWorld (by decide) (by decide)⟩

/-- C7 at a state in the middle of a reset with an unfinished task: `onFrame`
does not clear the flag, and neither does any other action. -/
theorem cancelling_left_only_by_onFrame_witness :
    cancellingWorld.cancelThreads = true ∧
    (onFrame cancellingWorld).cancelThreads = true ∧
    (∀ a, (step 128 cancellingWorld a).cancelThreads = false →
      a = Action.frame ∧ cleanupFutures cancellingWorld.futures = []) :=
  ⟨by decide, by decide,
    (cancelling_left_only_by_onFrame 128 cancellingWorld (by decide)).2.2.2.2.2.2.2⟩

/-- C8 at a state in the middle of a reset: `reset` changes nothing. -/
theorem reset_sets_only_flag_witness :
    cancellingWorld.cancelThreads = true ∧ reset cancellingWorld = cancellingWorld :=
  ⟨by decide, (reset_sets_only_flag cancellingWorld).2.2.2.2.2.2 (by decide)⟩

/-- C9 at the fresh world: schedule, reset, the task observes the flag,
`onFrame` completes the drain, and the tile can be scheduled again. -/
theorem reset_round_trip_witness :
    isReset freshWorld = false ∧
    (scheduleMeshExtraction freshWorld ⟨17, 3, -5⟩).1 = true ∧
    isReset (run 128 (reset (scheduleMeshExtraction freshWorld ⟨17, 3, -5⟩).2)
      [Action.task 0, Action.frame]) = false ∧
    (scheduleMeshExtraction (run 128 (reset (scheduleMeshExtraction freshWorld ⟨17, 3, -5⟩).2)
      [Action.task 0, Action.frame]) ⟨20, 1, -1⟩).1 = true :=
  ⟨by decide, by decide, by decide,
    ((reset_round_trip 128 freshWorld ⟨17, 3, -5⟩ (by decide) (by decide)).1
      [Action.task 0, Action.frame] (by decide) (by decide)).2.2 ⟨20, 1, -1⟩ (by decide)⟩

/-- C10 as the code has it, at the state of the counterexample: the first
handle left belongs to an unfinished task. -/
theorem onFrame_reaps_leading_ready_witness :
    (onFrame lateFirstTaskWorld).futures.head? = some ⟨⟨0, 0, 0⟩, TaskState.queued⟩ ∧
    Future.ready ⟨⟨0, 0, 0⟩, TaskState.queued⟩ = false :=
  ⟨by decide,
    (onFrame_reaps_leading_ready lateFirstTaskWorld).2.2.2.1 ⟨⟨0, 0, 0⟩, TaskState.queued⟩
      (by decide)⟩

/-! ## Mesh tiles and regions -/

/-- The floor of a quotient of integers, for a positive divisor, is the integer
quotient. -/
theorem floor_intCast_div (a s : Int) (hs : 0 < s) : ⌊(a : ℚ) / (s : ℚ)⌋ = a / s := by
  have h := Rat.floor_intCast_div_natCast a s.toNat
  have hcast : ((s.toNat : ℕ) : ℤ) = s := Int.toNat_of_nonneg (le_of_lt hs)
  have hq : ((s.toNat : ℕ) : ℚ) = (s : ℚ) := by
    rw [← Int.cast_natCast, hcast]
  rw [hq, hcast] at h
  exact h

/-- A coordinate that lies in the tile starting at `s * k` has quotient `k`. -/
theorem ediv_eq_of_tile (a s k : Int) (hs : 0 < s) (h1 : s * k ≤ a) (h2 : a < s * k + s) :
    a / s = k := by
  apply le_antisymm
  · have h : a / s < k + 1 := by
      apply Int.ediv_lt_of_lt_mul hs
      rw [Int.add_mul, Int.one_mul, Int.mul_comm]
      exact h2
    omega
  · apply Int.le_ediv_of_mul_le hs
    rw [Int.mul_comm]
    exact h1

/-- The tile of a coordinate starts at or below it and ends above it. -/
theorem tile_bounds (a s : Int) (hs : 0 < s) : s * (a / s) ≤ a ∧ a < s * (a / s) + s := by
  have h1 := Int.ediv_mul_le a (ne_of_gt hs)
  have h2 := Int.lt_ediv_add_one_mul_self a hs
  rw [Int.add_mul, Int.one_mul] at h2
  rw [Int.mul_comm] at h1 h2
  exact ⟨h1, h2⟩

/-! ## Facts about the machine arithmetic -/

/-- A number below `2 ^ k` has at most `k` binary digits. -/
theorem bitLengthAux_le (fuel n k : Nat) (h : n < 2 ^ k) : bitLengthAux fuel n ≤ k := by
  induction fuel generalizing n k with
  | zero => simp [bitLengthAux]
  | succ fuel ih =>
    simp only [bitLengthAux]
    by_cases hn : n = 0
    · simp [hn]
    · simp only [hn, if_false]
      cases k with
      | zero =>
        simp at h
        exact absurd h hn
      | succ k =>
        have h2 : n / 2 < 2 ^ k := by
          rw [Nat.pow_succ] at h
          omega
        have := ih (n / 2) k h2
        omega

/-- A number is below two to the number of its binary digits. -/
theorem lt_pow_bitLengthAux (fuel n : Nat) (h : n ≤ fuel) : n < 2 ^ bitLengthAux fuel n := by
  induction fuel generalizing n with
  | zero =>
    have hn : n = 0 := Nat.le_zero.mp h
    simp [hn, bitLengthAux]
  | succ fuel ih =>
    simp only [bitLengthAux]
    by_cases hn : n = 0
    · simp [hn]
    · simp only [hn, if_false]
      have h2 : n / 2 ≤ fuel := by omega
      have := ih (n / 2) h2
      rw [Nat.pow_succ]
      omega

/-- Two to the number of binary digits of a positive number is at most twice
the number. -/
theorem pow_bitLengthAux_le (fuel n : Nat) (h1 : 1 ≤ n) (h : n ≤ fuel) :
    2 ^ bitLengthAux fuel n ≤ 2 * n := by
  induction fuel generalizing n with
  | zero => omega
  | succ fuel ih =>
    simp only [bitLengthAux]
    have hn : n ≠ 0 := by omega
    simp only [hn, if_false]
    rw [Nat.pow_succ]
    by_cases h2 : n / 2 = 0
    · have hz : bitLengthAux fuel 0 = 0 := by
        cases fuel <;> simp [bitLengthAux]
      rw [h2, hz]
      omega
    · have := ih (n / 2) (by omega) (by omega)
      omega

/-- Two to the binary logarithm of a positive number is at most the number. -/
theorem pow_floorLog2_le (n : Nat) (h : 1 ≤ n) : 2 ^ floorLog2 n ≤ n := by
  have h1 := pow_bitLengthAux_le n n h (le_refl n)
  have h2 : 1 ≤ bitLength n := by
    by_contra hc
    have h0 : bitLengthAux n n = 0 := by
      simp only [bitLength] at hc
      omega
    have := lt_pow_bitLengthAux n n (le_refl n)
    rw [h0] at this
    omega
  simp only [floorLog2]
  have h3 : bitLength n = (bitLength n - 1) + 1 := by omega
  simp only [bitLength] at h1 h3 ⊢
  rw [h3, Nat.pow_succ] at h1
  omega

/-- A number is below two to its binary logarithm plus one. -/
theorem lt_pow_floorLog2_succ (n : Nat) : n < 2 ^ (floorLog2 n + 1) := by
  have h1 := lt_pow_bitLengthAux n n (le_refl n)
  simp only [floorLog2, bitLength]
  by_cases h0 : bitLengthAux n n = 0
  · rw [h0] at h1
    have hn : n = 0 := by simpa using h1
    subst hn
    decide
  · have h3 : bitLengthAux n n - 1 + 1 = bitLengthAux n n := by omega
    rw [h3]
    exact h1

/-- The binary logarithm of a number below `2 ^ 24` is at most 23. -/
theorem floorLog2_le (n : Nat) (h : n < 2 ^ 24) : floorLog2 n ≤ 23 := by
  have := bitLengthAux_le n n 24 h
  simp only [floorLog2, bitLength]
  omega

/-- Integers of fewer than 25 binary digits are `float`s. -/
theorem roundToFloat_of_lt (n : Int) (h : n.natAbs < 2 ^ 24) : roundToFloat n = n := by
  have := bitLengthAux_le n.natAbs n.natAbs 24 h
  simp only [roundToFloat, bitLength, this, if_true]

/-- An `int` in range is not wrapped. -/
theorem wrapInt32_of_range (n : Int) (h1 : -2147483648 ≤ n) (h2 : n ≤ 2147483647) :
    wrapInt32 n = n := by
  simp only [wrapInt32]
  omega

/-- The exponent found by `ceilLog2Ratio` is large enough. -/
theorem le_mul_pow_ceilLog2Ratio (d n : Nat) (hn : 1 ≤ n) :
    d ≤ n * 2 ^ ceilLog2Ratio d n := by
  simp only [ceilLog2Ratio]
  by_cases h : d ≤ n * 2 ^ floorLog2 (d / n)
  · simp only [h, if_true]
  · simp only [h, if_false]
    have h1 := lt_pow_floorLog2_succ (d / n)
    have h2 : d < n * 2 ^ (floorLog2 (d / n) + 1) := by
      rw [Nat.mul_comm]
      exact (Nat.div_lt_iff_lt_mul (by omega)).mp h1
    omega

/-- The result of `roundHalfEven` is within one half of the quotient. -/
theorem roundHalfEven_bounds (n d : Nat) (hd : 0 < d) :
    2 * (roundHalfEven n d * d) ≤ 2 * n + d ∧ 2 * n ≤ 2 * (roundHalfEven n d * d) + d := by
  have hdm := Nat.div_add_mod n d
  have hlt := Nat.mod_lt n hd
  have hq : n / d * d = d * (n / d) := Nat.mul_comm _ _
  simp only [roundHalfEven]
  by_cases h1 : 2 * (n % d) < d
  · simp only [h1, if_true]
    omega
  · simp only [h1, if_false]
    by_cases h2 : d < 2 * (n % d)
    · simp only [h2, if_true, Nat.add_mul, Nat.one_mul]
      omega
    · simp only [h2, if_false]
      by_cases h3 : n / d % 2 = 0
      · simp only [h3, if_true]
        omega
      · simp only [h3, if_false, Nat.add_mul, Nat.one_mul]
        omega

/-- The scaled quotient in `floorOfFloatDiv` has at least 24 binary digits:
the exponent is not chosen too large. -/
theorem floorOfFloatDiv_scale (n d : Nat) (hn : 1 ≤ n) (hd : 1 ≤ d) (hlt : n < 2 ^ 24) :
    d * 2 ^ 23 ≤
      n * 2 ^ (if d ≤ n then 23 - floorLog2 (n / d) else 23 + ceilLog2Ratio d n) := by
  by_cases h : d ≤ n
  · simp only [h, if_true]
    have hq : 1 ≤ n / d := (Nat.one_le_div_iff (by omega)).mpr h
    have hqlt : n / d < 2 ^ 24 := lt_of_le_of_lt (Nat.div_le_self n d) hlt
    have he := floorLog2_le (n / d) hqlt
    have hpow := pow_floorLog2_le (n / d) hq
    have hmul : 2 ^ floorLog2 (n / d) * d ≤ n := (Nat.le_div_iff_mul_le (by omega)).mp hpow
    have hsplit : (2 : Nat) ^ 23 = 2 ^ floorLog2 (n / d) * 2 ^ (23 - floorLog2 (n / d)) := by
      rw [← Nat.pow_add]
      congr 1
      omega
    calc d * 2 ^ 23 = (2 ^ floorLog2 (n / d) * d) * 2 ^ (23 - floorLog2 (n / d)) := by
          rw [hsplit]
          ring
      _ ≤ n * 2 ^ (23 - floorLog2 (n / d)) := Nat.mul_le_mul_right _ hmul
  · simp only [h, if_false]
    have hc := le_mul_pow_ceilLog2Ratio d n hn
    calc d * 2 ^ 23 ≤ (n * 2 ^ ceilLog2Ratio d n) * 2 ^ 23 := Nat.mul_le_mul_right _ hc
      _ = n * 2 ^ (23 + ceilLog2Ratio d n) := by
          rw [Nat.pow_add]
          ring

/-- For a positive divisor and a dividend of fewer than 25 binary digits, the
`float` division followed by `glm::floor` gives the floor of the exact
quotient. -/
theorem floorOfFloatDiv_exact (a s : Int) (hs : 0 < s) (ha : a.natAbs < 2 ^ 24) :
    floorOfFloatDiv a s = a / s := by
  by_cases ha0 : a = 0
  · subst ha0
    simp [floorOfFloatDiv]
  have hn : 1 ≤ a.natAbs := Nat.one_le_iff_ne_zero.mpr (Int.natAbs_ne_zero.mpr ha0)
  have hd : 1 ≤ s.natAbs := Nat.one_le_iff_ne_zero.mpr (Int.natAbs_ne_zero.mpr (ne_of_gt hs))
  have hup : (if s.natAbs ≤ a.natAbs then floorLog2 (a.natAbs / s.natAbs) - 23 else 0) = 0 := by
    by_cases h : s.natAbs ≤ a.natAbs
    · simp only [h, if_true]
      have hqlt : a.natAbs / s.natAbs < 2 ^ 24 := lt_of_le_of_lt (Nat.div_le_self _ _) ha
      have := floorLog2_le _ hqlt
      omega
    · simp only [h, if_false]
  have hscale := floorOfFloatDiv_scale a.natAbs s.natAbs hn hd ha
  simp only [floorOfFloatDiv]
  have hcond : ¬ (a.natAbs = 0 ∨ s.natAbs = 0) := by omega
  simp only [hcond, if_false, hup, Nat.pow_zero, Nat.mul_one, Int.mul_one]
  generalize hT : (2 : Nat) ^
    (if s.natAbs ≤ a.natAbs then 23 - floorLog2 (a.natAbs / s.natAbs)
      else 23 + ceilLog2Ratio s.natAbs a.natAbs) = T at hscale ⊢
  have hTpos : 0 < T := by
    rw [← hT]
    exact Nat.pow_pos (by decide)
  have hround := roundHalfEven_bounds (a.natAbs * T) s.natAbs (by omega)
  generalize roundHalfEven (a.natAbs * T) s.natAbs = m at hround ⊢
  -- everything over the integers
  have hsabs : (s.natAbs : Int) = s := Int.natAbs_of_nonneg (le_of_lt hs)
  have hTI : (0 : Int) < (T : Int) := by exact_mod_cast hTpos
  have hdT : s < 2 * (T : Int) := by
    have h1 : s.natAbs * 2 ^ 23 < 2 ^ 24 * T := by
      calc s.natAbs * 2 ^ 23 ≤ a.natAbs * T := hscale
        _ < 2 ^ 24 * T := Nat.mul_lt_mul_of_pos_right ha hTpos
    have h2 : s.natAbs < 2 * T := by omega
    rw [← hsabs]
    exact_mod_cast h2
  have hr1 : 2 * ((m : Int) * s) ≤ 2 * ((a.natAbs : Int) * T) + s := by
    have := hround.1
    rw [← hsabs]
    exact_mod_cast this
  have hr2 : 2 * ((a.natAbs : Int) * T) ≤ 2 * ((m : Int) * s) + s := by
    have := hround.2
    rw [← hsabs]
    exact_mod_cast this
  have hsdec : decide (s < 0) = false := by
    simp only [decide_eq_false_iff_not]
    omega
  have hpowcast : ((2 : Int) ^ (if s.natAbs ≤ a.natAbs then 23 - floorLog2 (a.natAbs / s.natAbs)
      else 23 + ceilLog2Ratio s.natAbs a.natAbs)) = (T : Int) := by
    rw [← hT]
    push_cast
    rfl
  rw [hpowcast, hsdec, Int.fdiv_eq_ediv _ (le_of_lt hTI)]
  have htile1 := Int.ediv_mul_le a (ne_of_gt hs)
  have htile2 := Int.lt_ediv_add_one_mul_self a hs
  apply ediv_eq_of_tile _ _ _ hTI
  · by_cases hneg : a < 0
    · have habs : (a.natAbs : Int) = -a := by omega
      rw [habs] at hr1 hr2
      simp only [hneg, decide_True]
      simp only [show (true = false) = False by simp, if_false]
      by_contra hc
      push_neg at hc
      nlinarith [mul_le_mul_of_nonneg_right (show -(m : Int) + 1 ≤ T * (a / s) by omega)
        (le_of_lt hs), mul_le_mul_of_nonneg_right htile1 (le_of_lt hTI)]
    · have habs : (a.natAbs : Int) = a := by omega
      rw [habs] at hr1 hr2
      simp only [hneg, decide_False, if_true]
      by_contra hc
      push_neg at hc
      nlinarith [mul_le_mul_of_nonneg_right (show (m : Int) + 1 ≤ T * (a / s) by omega)
        (le_of_lt hs), mul_le_mul_of_nonneg_right htile1 (le_of_lt hTI)]
  · by_cases hneg : a < 0
    · have habs : (a.natAbs : Int) = -a := by omega
      rw [habs] at hr1 hr2
      simp only [hneg, decide_True]
      simp only [show (true = false) = False by simp, if_false]
      by_contra hc
      push_neg at hc
      nlinarith [mul_le_mul_of_nonneg_right hc (le_of_lt hs),
        mul_le_mul_of_nonneg_right (show a + 1 ≤ (a / s + 1) * s by omega) (le_of_lt hTI)]
    · have habs : (a.natAbs : Int) = a := by omega
      rw [habs] at hr1 hr2
      simp only [hneg, decide_False, if_true]
      by_contra hc
      push_neg at hc
      nlinarith [mul_le_mul_of_nonneg_right hc (le_of_lt hs),
        mul_le_mul_of_nonneg_right (show a + 1 ≤ (a / s + 1) * s by omega) (le_of_lt hTI)]

/-- While the coordinate and the start of its tile have fewer than 25 binary
digits, a component of `getMeshPos` is the mesh size times the floor of the
exact quotient: no `float` is rounded and no `int` wraps. -/
theorem getMeshCoord_exact (s c : Int) (hs : 0 < s) (hs2 : s < 16777216)
    (h1 : -16777216 < s * (c / s)) (h2 : c < 16777216) :
    getMeshCoord s c = s * (c / s) := by
  have htile := tile_bounds c s hs
  have hsF : roundToFloat s = s := roundToFloat_of_lt s (by omega)
  have hcF : roundToFloat c = c := roundToFloat_of_lt c (by omega)
  have hk1 : -16777216 < c / s := by
    by_contra hc
    push_neg at hc
    nlinarith [mul_le_mul_of_nonneg_left hc (le_of_lt hs)]
  have hk2 : c / s < 16777216 := by
    by_contra hc
    push_neg at hc
    nlinarith [mul_le_mul_of_nonneg_left hc (le_of_lt hs)]
  have hkF : roundToFloat (c / s) = c / s := roundToFloat_of_lt (c / s) (by omega)
  have hprod : c / s * s = s * (c / s) := Int.mul_comm _ _
  have hpF : roundToFloat (s * (c / s)) = s * (c / s) :=
    roundToFloat_of_lt (s * (c / s)) (by omega)
  simp only [getMeshCoord, hsF, hcF]
  rw [floorOfFloatDiv_exact c s hs (by omega)]
  rw [wrapInt32_of_range (c / s) (by omega) (by omega), hkF, hprod, hpF]
  exact wrapInt32_of_range _ (by omega) (by omega)

/-- For a position whose coordinates are exact for the mesh size, `getMeshPos`
is the exact floor division scaled back. -/
theorem getMeshPos_exact (s : Int) (hs : 0 < s) (hs2 : s < 16777216) (p : IVec3)
    (hp : p.exactFor s) :
    getMeshPos s p = ⟨s * (p.x / s), s * (p.y / s), s * (p.z / s)⟩ := by
  obtain ⟨hx, hy, hz⟩ := hp
  simp only [exactCoord] at hx hy hz
  have tx := tile_bounds p.x s hs
  have ty := tile_bounds p.y s hs
  have tz := tile_bounds p.z s hs
  simp only [getMeshPos]
  rw [getMeshCoord_exact s p.x hs hs2 (by omega) hx.2,
    getMeshCoord_exact s p.y hs hs2 (by omega) hy.2,
    getMeshCoord_exact s p.z hs hs2 (by omega) hz.2]

/-- The start of a tile, when it has fewer than 25 binary digits, is its own
tile start. -/
theorem getMeshCoord_tile_start (s k : Int) (hs : 0 < s) (hs2 : s < 16777216)
    (h1 : -16777216 < s * k) (h2 : s * k < 16777216) :
    getMeshCoord s (s * k) = s * k := by
  have hk : s * k / s = k := Int.mul_ediv_cancel_left k (ne_of_gt hs)
  rw [getMeshCoord_exact s (s * k) hs hs2 (by rw [hk]; exact h1) h2, hk]

/-- C16, as the code has it: for a mesh size `s` with `0 < s < 2^24` and a
position whose coordinates `c` satisfy `-2^24 + s ≤ c < 2^24`, so that every
`float` in the computation holds its exact value, `getMeshPos p` is `s` times the
floor of `p / s` in every component, the floor rounding towards negative
infinity. Every component of the result is a multiple of `s`, the position lies
in the half open tile that starts at the result, every position of that range
in the tile has the same result, and `getMeshPos` is idempotent. -/
theorem getMeshPos_floor (s : Int) (hs : 0 < s) (hs2 : s < 16777216) (p : IVec3)
    (hp : p.exactFor s) :
    getMeshPos s p =
      ⟨s * ⌊(p.x : ℚ) / (s : ℚ)⌋, s * ⌊(p.y : ℚ) / (s : ℚ)⌋, s * ⌊(p.z : ℚ) / (s : ℚ)⌋⟩ ∧
    (s ∣ (getMeshPos s p).x ∧ s ∣ (getMeshPos s p).y ∧ s ∣ (getMeshPos s p).z) ∧
    ((getMeshPos s p).x ≤ p.x ∧ p.x < (getMeshPos s p).x + s) ∧
    ((getMeshPos s p).y ≤ p.y ∧ p.y < (getMeshPos s p).y + s) ∧
    ((getMeshPos s p).z ≤ p.z ∧ p.z < (getMeshPos s p).z + s) ∧
    (∀ q : IVec3, q.exactFor s →
      ((getMeshPos s p).x ≤ q.x ∧ q.x < (getMeshPos s p).x + s) →
      ((getMeshPos s p).y ≤ q.y ∧ q.y < (getMeshPos s p).y + s) →
      ((getMeshPos s p).z ≤ q.z ∧ q.z < (getMeshPos s p).z + s) →
      getMeshPos s q = getMeshPos s p) ∧
    getMeshPos s (getMeshPos s p) = getMeshPos s p := by
  have hform := getMeshPos_exact s hs hs2 p hp
  have hsame : ∀ q : IVec3, q.exactFor s →
      ((getMeshPos s p).x ≤ q.x ∧ q.x < (getMeshPos s p).x + s) →
      ((getMeshPos s p).y ≤ q.y ∧ q.y < (getMeshPos s p).y + s) →
      ((getMeshPos s p).z ≤ q.z ∧ q.z < (getMeshPos s p).z + s) →
      getMeshPos s q = getMeshPos s p := by
    intro q hq hx hy hz
    rw [hform] at hx hy hz
    rw [getMeshPos_exact s hs hs2 q hq, hform]
    rw [ediv_eq_of_tile q.x s (p.x / s) hs hx.1 hx.2,
      ediv_eq_of_tile q.y s (p.y / s) hs hy.1 hy.2,
      ediv_eq_of_tile q.z s (p.z / s) hs hz.1 hz.2]
  obtain ⟨hx, hy, hz⟩ := hp
  simp only [exactCoord] at hx hy hz
  have tx := tile_bounds p.x s hs
  have ty := tile_bounds p.y s hs
  have tz := tile_bounds p.z s hs
  refine ⟨?_, ?_, ?_, ?_, ?_, hsame, ?_⟩
  · rw [hform, floor_intCast_div _ s hs, floor_intCast_div _ s hs, floor_intCast_div _ s hs]
  · rw [hform]
    exact ⟨Dvd.intro _ rfl, Dvd.intro _ rfl, Dvd.intro _ rfl⟩
  · rw [hform]
    exact tx
  · rw [hform]
    exact ty
  · rw [hform]
    exact tz
  · rw [hform]
    simp only [getMeshPos]
    rw [getMeshCoord_tile_start s (p.x / s) hs hs2 (by omega) (by omega),
      getMeshCoord_tile_start s (p.y / s) hs hs2 (by omega) (by omega),
      getMeshCoord_tile_start s (p.z / s) hs hs2 (by omega) (by omega)]

/-- C16, counterexample: for the mesh size 31 and the coordinate -16777201, an
`int` that `float` holds exactly and whose `float` quotient has the right floor
-541201, the product with 31 is -16777231, which `float` rounds to -16777232.
The result is not 31 times the floor of the quotient, is not a multiple of 31,
and the coordinate is not below the result plus 31. -/
theorem getMeshPos_rounds_product :
    roundToFloat (-16777201) = -16777201 ∧
    floorOfFloatDiv (roundToFloat (-16777201)) (roundToFloat 31) = (-16777201 : Int) / 31 ∧
    (31 : Int) * ((-16777201 : Int) / 31) = -16777231 ∧
    getMeshPos 31 ⟨-16777201, 0, 0⟩ = ⟨-16777232, 0, 0⟩ ∧
    ¬ ((31 : Int) ∣ (getMeshPos 31 ⟨-16777201, 0, 0⟩).x) ∧
    ¬ ((-16777201 : Int) < (getMeshPos 31 ⟨-16777201, 0, 0⟩).x + 31) := by
  refine ⟨by decide, by decide, by decide, by decide, by decide, by decide⟩

/-- C17, as the code has it: for a size `s` of at least one voxel, a world of at
least one layer, and `int` values for which `pos.x + s - 1` and `pos.z + s - 1`
do not exceed the largest `int` (no addition overflows), `getRegion pos s` is the box from
`(pos.x, 0, pos.z)` to `(pos.x + s - 1, MAX_HEIGHT - 1, pos.z + s - 1)`: `s`
voxels wide and `s` voxels deep, of full height whatever `pos.y` is, with `mins`
at or below `maxs` in every component; `getMeshRegion` is this box for the mesh
size. -/
theorem getRegion_box (maxHeight : Int) (pos : IVec3) (s : Int)
    (hs : 1 ≤ s) (hs2 : fitsInt32 s) (hh : 1 ≤ maxHeight) (hh2 : fitsInt32 maxHeight)
    (hx : fitsInt32 pos.x ∧ fitsInt32 (pos.x + s - 1))
    (hz : fitsInt32 pos.z ∧ fitsInt32 (pos.z + s - 1)) :
    getRegion maxHeight pos s =
      ⟨⟨pos.x, 0, pos.z⟩, ⟨pos.x + s - 1, maxHeight - 1, pos.z + s - 1⟩⟩ ∧
    (getRegion maxHeight pos s).getWidthInVoxels = s ∧
    (getRegion maxHeight pos s).getDepthInVoxels = s ∧
    ((getRegion maxHeight pos s).mins.y = 0 ∧
      (getRegion maxHeight pos s).maxs.y = maxHeight - 1) ∧
    (∀ y : Int, getRegion maxHeight ⟨pos.x, y, pos.z⟩ s = getRegion maxHeight pos s) ∧
    ((getRegion maxHeight pos s).mins.x ≤ (getRegion maxHeight pos s).maxs.x ∧
      (getRegion maxHeight pos s).mins.y ≤ (getRegion maxHeight pos s).maxs.y ∧
      (getRegion maxHeight pos s).mins.z ≤ (getRegion maxHeight pos s).maxs.z) ∧
    getMeshRegion maxHeight s pos = getRegion maxHeight pos s := by
  simp only [fitsInt32] at hs2 hh2 hx hz
  have hdelta : wrapInt32 (s - 1) = s - 1 := wrapInt32_of_range _ (by omega) (by omega)
  have hmx : wrapInt32 (pos.x + (s - 1)) = pos.x + s - 1 := by
    rw [wrapInt32_of_range _ (by omega) (by omega)]
    omega
  have hmz : wrapInt32 (pos.z + (s - 1)) = pos.z + s - 1 := by
    rw [wrapInt32_of_range _ (by omega) (by omega)]
    omega
  have hmy : wrapInt32 (maxHeight - 1) = maxHeight - 1 :=
    wrapInt32_of_range _ (by omega) (by omega)
  have hbox : getRegion maxHeight pos s =
      ⟨⟨pos.x, 0, pos.z⟩, ⟨pos.x + s - 1, maxHeight - 1, pos.z + s - 1⟩⟩ := by
    simp only [getRegion, hdelta, hmx, hmz, hmy]
  refine ⟨hbox, ?_, ?_, ?_, fun _ => rfl, ?_, rfl⟩
  · rw [hbox]
    simp only [Region.getWidthInVoxels]
    omega
  · rw [hbox]
    simp only [Region.getDepthInVoxels]
    omega
  · rw [hbox]
    exact ⟨rfl, rfl⟩
  · rw [hbox]
    refine ⟨?_, ?_, ?_⟩
    · show pos.x ≤ pos.x + s - 1
      omega
    · show (0 : Int) ≤ maxHeight - 1
      omega
    · show pos.z ≤ pos.z + s - 1
      omega

/-- C17, counterexample: with the mesh size 1000 the position 2147483520 lies in
the tile 2147483008, and `getRegion` for that tile adds 999 beyond the largest
`int`: `maxs.x` wraps to -2147483289 and lies below `mins.x`. The same happens
at `pos.x = 2147483647` with size 16. -/
theorem getRegion_wraps_maxs :
    getMeshPos 1000 ⟨2147483520, 0, 0⟩ = ⟨2147483008, 0, 0⟩ ∧
    getRegion 128 ⟨2147483008, 0, 0⟩ 1000 =
      ⟨⟨2147483008, 0, 0⟩, ⟨-2147483289, 127, 999⟩⟩ ∧
    (getRegion 128 ⟨2147483647, 0, 0⟩ 16).maxs.x = -2147483634 ∧
    ¬ (∀ (maxHeight : Int) (pos : IVec3) (s : Int), 1 ≤ s →
      (getRegion maxHeight pos s).mins.x ≤ (getRegion maxHeight pos s).maxs.x) := by
  refine ⟨by decide, by decide, by decide, ?_⟩
  intro h
  exact absurd (h 128 ⟨2147483008, 0, 0⟩ 1000 (by decide)) (by decide)

/-! ## Queries -/

/-- The callback of `findFloor` along a ray whose voxels before `s` do not match
and whose voxel `s` matches: the traversal is interrupted with `y` at `s`. -/
theorem findFloor_scan_match (check : VoxelType → Bool) (before after : List Sampler)
    (s : Sampler) (y0 : Int)
    (hb : ∀ b ∈ before, check b.voxel.material = false)
    (hs : check s.voxel.material = true) :
    raycastWithDirection (before ++ s :: after)
      (fun (y1 : Int) (sampler : Sampler) =>
        if check sampler.getVoxel.getMaterial then
          (false, sampler.getPosition.y)
        else
          (true, y1)) y0 = (RaycastResult.Interupted, s.position.y) := by
  induction before with
  | nil =>
    simp [raycastWithDirection, Sampler.getVoxel, Voxel.getMaterial, Sampler.getPosition, hs]
  | cons b bs ih =>
    have hb0 : check b.voxel.material = false := hb b (List.mem_cons_self b bs)
    have hbs : ∀ c ∈ bs, check c.voxel.material = false :=
      fun c hc => hb c (List.mem_cons_of_mem b hc)
    simp only [List.cons_append, raycastWithDirection, Sampler.getVoxel, Voxel.getMaterial, hb0]
    exact ih hbs

/-- The callback of `findFloor` along a ray without a matching voxel: the
traversal completes and `y` keeps its value. -/
theorem findFloor_scan_none (check : VoxelType → Bool) (ray : List Sampler) (y0 : Int)
    (h : ∀ b ∈ ray, check b.voxel.material = false) :
    raycastWithDirection ray
      (fun (y1 : Int) (sampler : Sampler) =>
        if check sampler.getVoxel.getMaterial then
          (false, sampler.getPosition.y)
        else
          (true, y1)) y0 = (RaycastResult.Completed, y0) := by
  induction ray with
  | nil => rfl
  | cons b bs ih =>
    have hb0 : check b.voxel.material = false := h b (List.mem_cons_self b bs)
    have hbs : ∀ c ∈ bs, check c.voxel.material = false :=
      fun c hc => h c (List.mem_cons_of_mem b hc)
    simp only [raycastWithDirection, Sampler.getVoxel, Voxel.getMaterial, hb0]
    exact ih hbs

/-- A list with an element satisfying `p` splits at the first such element. -/
theorem exists_first_match {α : Type} (p : α → Bool) (l : List α) (h : ∃ a ∈ l, p a = true) :
    ∃ before a after, l = before ++ a :: after ∧ (∀ b ∈ before, p b = false) ∧ p a = true := by
  induction l with
  | nil =>
    obtain ⟨a, ha, _⟩ := h
    simp at ha
  | cons c cs ih =>
    by_cases hc : p c = true
    · exact ⟨[], c, cs, rfl, by simp, hc⟩
    · have hrest : ∃ a ∈ cs, p a = true := by
        obtain ⟨a, ha, hpa⟩ := h
        rcases List.mem_cons.mp ha with rfl | hmem
        · exact absurd hpa hc
        · exact ⟨a, hmem, hpa⟩
      obtain ⟨before, a, after, hl, hb, ha⟩ := ih hrest
      refine ⟨c :: before, a, after, by rw [hl]; rfl, ?_, ha⟩
      intro b hbmem
      rcases List.mem_cons.mp hbmem with rfl | hmem
      · simpa using hc
      · exact hb b hmem

/-- C14: `findFloor`, with the downward ray given by the voxels it visits,
returns the `y` of the first visited voxel whose material satisfies `check`
and `NO_FLOOR_FOUND` when no visited voxel does. So it returns `H` over a
column whose matching voxels are all at height `H`, provided there is one, and
the sentinel over a column without a matching voxel. -/
theorem findFloor_first_match (noFloorFound : Int) (ray : List Sampler)
    (check : VoxelType → Bool) :
    (∀ before s after, ray = before ++ s :: after →
      (∀ b ∈ before, check b.voxel.material = false) → check s.voxel.material = true →
      findFloor noFloorFound ray check = s.position.y) ∧
    ((∀ s ∈ ray, check s.voxel.material = false) →
      findFloor noFloorFound ray check = noFloorFound) ∧
    (∀ H : Int, (∃ s ∈ ray, check s.voxel.material = true) →
      (∀ s ∈ ray, check s.voxel.material = true → s.position.y = H) →
      findFloor noFloorFound ray check = H) := by
  have hfirst : ∀ before s after, ray = before ++ s :: after →
      (∀ b ∈ before, check b.voxel.material = false) → check s.voxel.material = true →
      findFloor noFloorFound ray check = s.position.y := by
    intro before s after hray hb hs
    simp only [findFloor, raycastCallback]
    rw [hray, findFloor_scan_match check before after s noFloorFound hb hs]
  refine ⟨hfirst, ?_, ?_⟩
  · intro hnone
    simp only [findFloor, raycastCallback]
    rw [findFloor_scan_none check ray noFloorFound hnone]
  · intro H hex hall
    obtain ⟨before, s, after, hray, hb, hs⟩ :=
      exists_first_match (fun s => check s.voxel.material) ray hex
    rw [hfirst before s after hray hb hs]
    apply hall s _ hs
    rw [hray]
    simp

/-- The callback of `World::raycast` along a ray whose voxels before `s` are not
blocked and whose voxel `s` is: the traversal is interrupted at `s`. -/
theorem raycast_scan_blocked (isBlocked : VoxelType → Bool) (before after : List Sampler)
    (s : Sampler) (hit : IVec3) (voxel : Voxel)
    (hb : ∀ b ∈ before, isBlocked b.voxel.material = false)
    (hs : isBlocked s.voxel.material = true) :
    raycastWithDirection (before ++ s :: after)
      (fun (captured : IVec3 × Voxel) (sampler : Sampler) =>
        let voxel1 := sampler.getVoxel
        if isBlocked voxel1.getMaterial then
          (false, (sampler.getPosition, voxel1))
        else
          (true, (captured.1, voxel1))) (hit, voxel) =
      (RaycastResult.Interupted, (s.position, s.voxel)) := by
  induction before generalizing voxel with
  | nil =>
    simp [raycastWithDirection, Sampler.getVoxel, Voxel.getMaterial, Sampler.getPosition, hs]
  | cons b bs ih =>
    have hb0 : isBlocked b.voxel.material = false := hb b (List.mem_cons_self b bs)
    have hbs : ∀ c ∈ bs, isBlocked c.voxel.material = false :=
      fun c hc => hb c (List.mem_cons_of_mem b hc)
    simp only [List.cons_append, raycastWithDirection, Sampler.getVoxel, Voxel.getMaterial, hb0]
    exact ih b.voxel hbs

/-- The callback of `World::raycast` along a ray without a blocked voxel: the
traversal completes and `hit` keeps its value. -/
theorem raycast_scan_free (isBlocked : VoxelType → Bool) (ray : List Sampler)
    (hit : IVec3) (voxel : Voxel)
    (h : ∀ b ∈ ray, isBlocked b.voxel.material = false) :
    (raycastWithDirection ray
      (fun (captured : IVec3 × Voxel) (sampler : Sampler) =>
        let voxel1 := sampler.getVoxel
        if isBlocked voxel1.getMaterial then
          (false, (sampler.getPosition, voxel1))
        else
          (true, (captured.1, voxel1))) (hit, voxel)).1 = RaycastResult.Completed ∧
    (raycastWithDirection ray
      (fun (captured : IVec3 × Voxel) (sampler : Sampler) =>
        let voxel1 := sampler.getVoxel
        if isBlocked voxel1.getMaterial then
          (false, (sampler.getPosition, voxel1))
        else
          (true, (captured.1, voxel1))) (hit, voxel)).2.1 = hit := by
  induction ray generalizing voxel with
  | nil => exact ⟨rfl, rfl⟩
  | cons b bs ih =>
    have hb0 : isBlocked b.voxel.material = false := h b (List.mem_cons_self b bs)
    have hbs : ∀ c ∈ bs, isBlocked c.voxel.material = false :=
      fun c hc => h c (List.mem_cons_of_mem b hc)
    simp only [raycastWithDirection, Sampler.getVoxel, Voxel.getMaterial, hb0]
    exact ih b.voxel hbs

/-- C15: `World::raycast`, with the ray given by the voxels it visits, returns
true exactly when some visited voxel has a blocked material; then `hit` is the
position of the first blocked voxel in visiting order and `voxel` is that
voxel. When no visited voxel is blocked, in particular when none is visited, it
returns false and `hit` keeps its value. -/
theorem raycast_first_blocked (isBlocked : VoxelType → Bool) (ray : List Sampler)
    (hit : IVec3) (voxel : Voxel) :
    ((raycast isBlocked ray hit voxel).1 = true ↔
      ∃ s ∈ ray, isBlocked s.voxel.material = true) ∧
    (∀ before s after, ray = before ++ s :: after →
      (∀ b ∈ before, isBlocked b.voxel.material = false) →
      isBlocked s.voxel.material = true →
      raycast isBlocked ray hit voxel = (true, s.position, s.voxel)) ∧
    ((∀ s ∈ ray, isBlocked s.voxel.material = false) →
      (raycast isBlocked ray hit voxel).1 = false ∧
      (raycast isBlocked ray hit voxel).2.1 = hit) ∧
    raycast isBlocked [] hit voxel = (false, hit, voxel) := by
  have hfirst : ∀ before s after, ray = before ++ s :: after →
      (∀ b ∈ before, isBlocked b.voxel.material = false) →
      isBlocked s.voxel.material = true →
      raycast isBlocked ray hit voxel = (true, s.position, s.voxel) := by
    intro before s after hray hb hs
    simp only [raycast, raycastCallback]
    rw [hray, raycast_scan_blocked isBlocked before after s hit voxel hb hs]
    simp
  have hfree : (∀ s ∈ ray, isBlocked s.voxel.material = false) →
      (raycast isBlocked ray hit voxel).1 = false ∧
      (raycast isBlocked ray hit voxel).2.1 = hit := by
    intro hnone
    have h := raycast_scan_free isBlocked ray hit voxel hnone
    simp only [raycast, raycastCallback]
    rw [h.1]
    exact ⟨by simp, h.2⟩
  refine ⟨?_, hfirst, hfree, rfl⟩
  constructor
  · intro htrue
    by_contra hno
    have hnone : ∀ s ∈ ray, isBlocked s.voxel.material = false := by
      intro s hs
      cases hbs : isBlocked s.voxel.material
      · rfl
      · exact absurd ⟨s, hs, hbs⟩ hno
    rw [(hfree hnone).1] at htrue
    exact absurd htrue (by decide)
  · intro hex
    obtain ⟨before, s, after, hray, hb, hs⟩ :=
      exists_first_match (fun s => isBlocked s.voxel.material) ray hex
    rw [hfirst before s after hray hb hs]

/-- C13, the code at a failing search: when the pathfinder finds no path (or
exceeds its iteration cap), `findPath` still returns true and leaves the result
list as it was. -/
theorem findPath_true_without_path (start finish : IVec3) (listResult : List IVec3) :
    findPath (fun _ _ => none) start finish listResult = (true, listResult) := rfl

/-- C20, the code at one extracted tile `(160, 0, 160)`: the sampled ranges stay
`[-100, 100]` and do not contain the tile; at the tile `(0, 0, 0)` the upper
bounds drop to 0, so the ranges do not contain the default area either. -/
theorem randomPos_bounds_miss_tile :
    randomPosBounds {⟨160, 0, 160⟩} = (-100, -100, 100, 100) ∧
    ¬ ((160 : Int) ≤ (randomPosBounds {⟨160, 0, 160⟩}).2.2.1) ∧
    randomPosBounds {⟨0, 0, 0⟩} = (-100, -100, 0, 0) ∧
    (randomPos (fun _ hi => hi) (-1) (fun _ _ => []) (fun _ => false)
      { World.initial 16 with meshesExtracted := {⟨160, 0, 160⟩} }).x = 100 := by
  refine ⟨by decide, by decide, by decide, by decide⟩

/-! ## Worker steps on the list of handles -/

/-- A handle found at index `i` splits the list there, and `set` replaces it. -/
theorem futures_split (l : List Future) (i : Nat) (f : Future) (h : l.get? i = some f) :
    ∃ l1 l2, l = l1 ++ f :: l2 ∧ l1.length = i ∧ ∀ x, l.set i x = l1 ++ x :: l2 := by
  induction l generalizing i with
  | nil => simp at h
  | cons g gs ih =>
    cases i with
    | zero =>
      simp only [List.get?] at h
      cases h
      exact ⟨[], gs, rfl, rfl, fun _ => rfl⟩
    | succ j =>
      simp only [List.get?] at h
      obtain ⟨l1, l2, hl, hlen, hset⟩ := ih j h
      refine ⟨g :: l1, l2, by rw [hl]; rfl, by simp [hlen], ?_⟩
      intro x
      simp only [List.set, hset x, List.cons_append]

/-- A worker step at an index without a handle changes nothing. -/
theorem taskStep_none (maxHeight : Int) (w : World) (i : Nat) (h : w.futures.get? i = none) :
    taskStep maxHeight w i = w := by
  simp only [taskStep, h]

/-- A worker step at the handle `f`: the handle gets the next task state and a
pushed mesh pair goes to the back of the delivery queue. -/
theorem taskStep_some (maxHeight : Int) (w : World) (i : Nat) (f : Future)
    (h : w.futures.get? i = some f) :
    ∃ l1 l2, w.futures = l1 ++ f :: l2 ∧ l1.length = i ∧
      taskStep maxHeight w i =
        { w with
          futures := l1 ++
            { f with state :=
              (workerStep maxHeight w.meshSize w.cancelThreads f.pos f.state).1 } :: l2
          meshQueue := w.meshQueue ++
            (workerStep maxHeight w.meshSize w.cancelThreads f.pos f.state).2.toList } := by
  obtain ⟨l1, l2, hl, hlen, hset⟩ := futures_split w.futures i f h
  refine ⟨l1, l2, hl, hlen, ?_⟩
  simp only [taskStep, h, hset]
  cases (workerStep maxHeight w.meshSize w.cancelThreads f.pos f.state).2 <;> simp

/-- A worker keeps the region and buffers of its tile from checkpoint to checkpoint. -/
theorem workerStep_consistent (maxHeight meshSize : Int) (cancel : Bool) (pos : IVec3)
    (st : TaskState) (h : st.consistent maxHeight meshSize pos) :
    (workerStep maxHeight meshSize cancel pos st).1.consistent maxHeight meshSize pos := by
  cases cancel with
  | true =>
    cases st <;> simp [workerStep, TaskState.consistent]
  | false =>
    cases st with
    | queued => simp [workerStep, TaskState.consistent]
    | allocated region data =>
      simp only [TaskState.consistent, workerStep] at h
      simp only [Bool.false_eq_true, if_false, Prod.mk.injEq, TaskState.allocated.injEq,
        and_true] at h
      obtain ⟨hr, hd⟩ := h
      subst hr
      subst hd
      simp [workerStep, TaskState.consistent, extractedMeshes, ChunkMeshes.create]
    | solidExtracted region data =>
      simp only [TaskState.consistent] at h
      simp only [workerStep, TaskState.consistent, Bool.false_eq_true, if_false]
      exact h.2
    | waterExtracted region data => simp [workerStep, TaskState.consistent]
    | finished => simp [workerStep, TaskState.consistent]

/-- What a worker pushes is the mesh pair of its tile. -/
theorem workerStep_push (maxHeight meshSize : Int) (cancel : Bool) (pos : IVec3)
    (st : TaskState) (d : ChunkMeshes) (h : st.consistent maxHeight meshSize pos)
    (hp : (workerStep maxHeight meshSize cancel pos st).2 = some d) :
    d = extractedMeshes maxHeight meshSize pos := by
  cases cancel with
  | true =>
    rw [workerStep_cancelled] at hp
    simp at hp
  | false =>
    cases st with
    | queued => simp [workerStep] at hp
    | allocated region data => simp [workerStep] at hp
    | solidExtracted region data => simp [workerStep] at hp
    | waterExtracted region data =>
      simp only [workerStep, Bool.false_eq_true, if_false, Option.some.injEq] at hp
      rw [← hp]
      exact h
    | finished => simp [workerStep] at hp

/-! ## Delivered meshes come from scheduled tiles -/

/-- The scheduled tiles of a run: those of its first action, then those of the rest. -/
theorem scheduledTiles_cons (maxHeight : Int) (w : World) (a : Action) (as : List Action) :
    scheduledTiles maxHeight w (a :: as) =
      scheduledTiles maxHeight w [a] ++ scheduledTiles maxHeight (step maxHeight w a) as := by
  simp [scheduledTiles]

/-- The invariant `traceable` stays true when tiles are added. -/
theorem traceable_mono (maxHeight : Int) (tiles tiles1 : List IVec3) (w : World)
    (h : w.traceable maxHeight tiles) (hsub : ∀ t ∈ tiles, t ∈ tiles1) :
    w.traceable maxHeight tiles1 := by
  constructor
  · intro m hm
    obtain ⟨t, ht, hmt⟩ := h.1 m hm
    exact ⟨t, hsub t ht, hmt⟩
  · intro f hf
    exact ⟨hsub _ (h.2 f hf).1, (h.2 f hf).2⟩

/-- Every action keeps the invariant `traceable`, with the tile it schedules added. -/
theorem step_traceable (maxHeight : Int) (w : World) (a : Action) (tiles : List IVec3)
    (h : w.traceable maxHeight tiles) :
    (step maxHeight w a).traceable maxHeight (tiles ++ scheduledTiles maxHeight w [a]) := by
  have hmono : w.traceable maxHeight (tiles ++ scheduledTiles maxHeight w [a]) :=
    traceable_mono maxHeight tiles _ w h (fun t ht => List.mem_append_left _ ht)
  cases a with
  | schedule p =>
    simp only [step]
    by_cases hc : w.cancelThreads = true ∨ getMeshPos w.meshSize p ∈ w.meshesExtracted
    · rw [scheduleMeshExtraction_eq, if_pos hc]
      exact hmono
    · have htiles : scheduledTiles maxHeight w [Action.schedule p] =
          [getMeshPos w.meshSize p] := by
        simp [scheduledTiles, scheduleMeshExtraction_eq, hc]
      rw [htiles]
      rw [htiles] at hmono
      rw [scheduleMeshExtraction_eq, if_neg hc]
      constructor
      · exact hmono.1
      · intro f hf
        simp only [List.mem_append, List.mem_singleton] at hf
        rcases hf with hf | rfl
        · exact hmono.2 f hf
        · exact ⟨by simp, trivial⟩
  | allowRe p => exact hmono
  | pop =>
    simp only [step, pop]
    cases hq : w.meshQueue with
    | nil => exact hmono
    | cons item rest =>
      constructor
      · intro m hm
        apply hmono.1 m
        rw [hq]
        exact List.mem_cons_of_mem item hm
      · exact hmono.2
  | reset => exact hmono
  | frame =>
    simp only [step]
    rw [onFrame_eq]
    split
    · constructor
      · intro m hm
        simp at hm
      · intro f hf
        simp at hf
    · constructor
      · exact hmono.1
      · intro f hf
        apply hmono.2 f
        have hf1 : f ∈ cleanupFutures w.futures := hf
        rw [cleanupFutures_eq_dropWhile] at hf1
        exact (List.dropWhile_suffix Future.ready).subset hf1
  | task i =>
    simp only [step]
    cases hfi : w.futures.get? i with
    | none =>
      rw [taskStep_none maxHeight w i hfi]
      exact hmono
    | some f =>
      obtain ⟨l1, l2, hl, _, hstep⟩ := taskStep_some maxHeight w i f hfi
      rw [hstep]
      have hfmem : f ∈ w.futures := by
        rw [hl]
        simp
      have hfinv := hmono.2 f hfmem
      constructor
      · intro m hm
        simp only [List.mem_append] at hm
        rcases hm with hm | hm
        · exact hmono.1 m hm
        · refine ⟨f.pos, hfinv.1, ?_⟩
          apply workerStep_push maxHeight w.meshSize w.cancelThreads f.pos f.state m hfinv.2
          cases hpush : (workerStep maxHeight w.meshSize w.cancelThreads f.pos f.state).2 with
          | none => simp [hpush] at hm
          | some d =>
            simp only [hpush, Option.toList, List.mem_singleton] at hm
            rw [hm]
      · intro g hg
        simp only [List.mem_append, List.mem_cons] at hg
        rcases hg with hg | rfl | hg
        · apply hmono.2 g
          rw [hl]
          simp [hg]
        · exact ⟨hfinv.1, workerStep_consistent maxHeight w.meshSize w.cancelThreads
            f.pos f.state hfinv.2⟩
        · apply hmono.2 g
          rw [hl]
          simp [hg]

/-- Every run keeps the invariant `traceable`, with the tiles it schedules added. -/
theorem run_traceable (maxHeight : Int) (as : List Action) (w : World) (tiles : List IVec3)
    (h : w.traceable maxHeight tiles) :
    (run maxHeight w as).traceable maxHeight (tiles ++ scheduledTiles maxHeight w as) := by
  induction as generalizing w tiles with
  | nil => simpa [run, scheduledTiles] using h
  | cons a as ih =>
    rw [scheduledTiles_cons, ← List.append_assoc]
    exact ih (step maxHeight w a) _ (step_traceable maxHeight w a tiles h)

/-- A tile counted by `scheduledTiles` comes from a `scheduleMeshExtraction` call
of the run that returned true and put the tile into the dedup set. -/
theorem scheduledTiles_origin (maxHeight : Int) (as : List Action) (w : World) (t : IVec3)
    (ht : t ∈ scheduledTiles maxHeight w as) :
    ∃ before p after, as = before ++ Action.schedule p :: after ∧
      (scheduleMeshExtraction (run maxHeight w before) p).1 = true ∧
      getMeshPos w.meshSize p = t ∧
      t ∈ (scheduleMeshExtraction (run maxHeight w before) p).2.meshesExtracted := by
  induction as generalizing w with
  | nil => simp [scheduledTiles] at ht
  | cons a as ih =>
    rw [scheduledTiles_cons, List.mem_append] at ht
    rcases ht with ht | ht
    · cases a with
      | schedule p =>
        by_cases hr : (scheduleMeshExtraction w p).1 = true
        · simp only [scheduledTiles, hr, if_true, List.append_nil, List.mem_singleton] at ht
          refine ⟨[], p, as, rfl, hr, ht.symm, ?_⟩
          obtain ⟨_, _, hst⟩ := scheduleMeshExtraction_of_true w p hr
          simp only [run]
          rw [hst, ht]
          exact Finset.mem_insert_self _ _
        · simp [scheduledTiles, hr] at ht
      | allowRe p => simp [scheduledTiles] at ht
      | pop => simp [scheduledTiles] at ht
      | reset => simp [scheduledTiles] at ht
      | frame => simp [scheduledTiles] at ht
      | task i => simp [scheduledTiles] at ht
    · obtain ⟨before, p, after, has, hr, hp, hmem⟩ := ih (step maxHeight w a) ht
      refine ⟨a :: before, p, after, by rw [has]; rfl, hr, ?_, hmem⟩
      rw [← hp, step_meshSize]

/-- C12: in every state reached from the initial state, every mesh pair in the
delivery queue, and so every mesh pair that `pop` returns, is the mesh pair of
a tile for which a `scheduleMeshExtraction` call of the run returned true and
which that call put into the dedup set. -/
theorem delivered_meshes_were_scheduled (maxHeight meshSize : Int) (as : List Action) :
    (∀ m ∈ (run maxHeight (World.initial meshSize) as).meshQueue,
      ∃ t ∈ scheduledTiles maxHeight (World.initial meshSize) as,
        m = extractedMeshes maxHeight meshSize t) ∧
    (∀ m, (pop (run maxHeight (World.initial meshSize) as)).1 = some m →
      ∃ t ∈ scheduledTiles maxHeight (World.initial meshSize) as,
        m = extractedMeshes maxHeight meshSize t) ∧
    (∀ t ∈ scheduledTiles maxHeight (World.initial meshSize) as,
      ∃ before p after, as = before ++ Action.schedule p :: after ∧
        (scheduleMeshExtraction (run maxHeight (World.initial meshSize) before) p).1 = true ∧
        getMeshPos meshSize p = t ∧
        t ∈ (scheduleMeshExtraction
          (run maxHeight (World.initial meshSize) before) p).2.meshesExtracted) := by
  have hinit : (World.initial meshSize).traceable maxHeight [] := by
    constructor
    · intro m hm
      simp [World.initial] at hm
    · intro f hf
      simp [World.initial] at hf
  have hrun := run_traceable maxHeight as (World.initial meshSize) [] hinit
  have hsize : (run maxHeight (World.initial meshSize) as).meshSize = meshSize := by
    rw [run_meshSize]
    rfl
  have hqueue : ∀ m ∈ (run maxHeight (World.initial meshSize) as).meshQueue,
      ∃ t ∈ scheduledTiles maxHeight (World.initial meshSize) as,
        m = extractedMeshes maxHeight meshSize t := by
    intro m hm
    obtain ⟨t, ht, hmt⟩ := hrun.1 m hm
    rw [hsize] at hmt
    exact ⟨t, by simpa using ht, hmt⟩
  refine ⟨hqueue, ?_, ?_⟩
  · intro m hm
    apply hqueue m
    unfold pop at hm
    cases hq : (run maxHeight (World.initial meshSize) as).meshQueue with
    | nil => simp [hq] at hm
    | cons item rest =>
      simp only [hq, Option.some.injEq] at hm
      rw [← hm]
      exact List.mem_cons_self item rest
  · intro t ht
    exact scheduledTiles_origin maxHeight as (World.initial meshSize) t ht

/-! ## At most one outstanding task per tile -/

/-- A finished task stays finished. -/
theorem workerStep_finished (maxHeight meshSize : Int) (cancel : Bool) (f : Future)
    (h : f.ready = true) :
    Future.ready { f with state := (workerStep maxHeight meshSize cancel f.pos f.state).1 } =
      true := by
  cases hst : f.state with
  | finished => simp [Future.ready, workerStep]
  | queued => simp [Future.ready, hst] at h
  | allocated region data => simp [Future.ready, hst] at h
  | solidExtracted region data => simp [Future.ready, hst] at h
  | waterExtracted region data => simp [Future.ready, hst] at h

/-- The tiles of the outstanding handles, after the handle `f` made a worker
step, are among those before the step. -/
theorem outstanding_tiles_sublist (l1 l2 : List Future) (f g : Future)
    (hpos : g.pos = f.pos) (hout : g.outstanding = true → f.outstanding = true) :
    (((l1 ++ g :: l2).filter Future.outstanding).map Future.pos).Sublist
      (((l1 ++ f :: l2).filter Future.outstanding).map Future.pos) := by
  simp only [List.filter_append, List.map_append]
  apply List.Sublist.append (List.Sublist.refl _)
  by_cases hg : g.outstanding = true
  · have hf := hout hg
    simp only [List.filter_cons, hg, hf, if_true, List.map_cons, hpos]
    exact List.Sublist.refl _
  · simp only [List.filter_cons, hg]
    by_cases hf : f.outstanding = true
    · simp only [hf, if_true, List.map_cons]
      exact List.Sublist.cons _ (List.Sublist.refl _)
    · simp only [hf]
      exact List.Sublist.refl _

/-- Every action keeps the invariant `oneTaskPerTile`, as long as an
`allowReExtraction` is for a tile without an outstanding task. -/
theorem step_oneTaskPerTile (maxHeight : Int) (w : World) (a : Action)
    (h : w.oneTaskPerTile) (hidle : allowsOnlyIdleTiles maxHeight w [a] = true) :
    (step maxHeight w a).oneTaskPerTile := by
  cases a with
  | schedule p =>
    simp only [step]
    by_cases hc : w.cancelThreads = true ∨ getMeshPos w.meshSize p ∈ w.meshesExtracted
    · rw [scheduleMeshExtraction_eq, if_pos hc]
      exact h
    · rw [scheduleMeshExtraction_eq, if_neg hc]
      have hm : getMeshPos w.meshSize p ∉ w.meshesExtracted := fun hm => hc (Or.inr hm)
      constructor
      · have hnew : Future.outstanding ⟨getMeshPos w.meshSize p, TaskState.queued⟩ = true := rfl
        simp only [List.filter_append, List.map_append, List.filter_cons, hnew, if_true,
          List.filter_nil, List.map_cons, List.map_nil]
        apply List.Nodup.append h.1 (List.nodup_singleton _)
        intro t ht hts
        simp only [List.mem_singleton] at hts
        subst hts
        obtain ⟨f, hf, hfp⟩ := List.mem_map.mp ht
        have hf2 := List.mem_filter.mp hf
        apply hm
        rw [← hfp]
        exact h.2 f hf2.1 hf2.2
      · intro f hf hout
        simp only [List.mem_append, List.mem_singleton] at hf
        rcases hf with hf | rfl
        · exact Finset.mem_insert_of_mem (h.2 f hf hout)
        · exact Finset.mem_insert_self _ _
  | allowRe p =>
    simp only [allowsOnlyIdleTiles, Bool.and_true, List.all_eq_true, Bool.or_eq_true,
      decide_eq_true_eq] at hidle
    constructor
    · exact h.1
    · intro f hf hout
      simp only [step, allowReExtraction]
      apply Finset.mem_erase.mpr
      refine ⟨?_, h.2 f hf hout⟩
      rcases hidle f hf with hr | hne
      · simp [Future.outstanding, hr] at hout
      · exact hne
  | pop =>
    simp only [step, World.oneTaskPerTile]
    rw [(pop_frame w).2.2.1, (pop_frame w).2.1]
    exact h
  | reset => exact h
  | frame =>
    simp only [step]
    rw [onFrame_eq]
    split
    · constructor
      · simp
      · intro f hf
        simp at hf
    · have hsuf : (cleanupFutures w.futures) <:+ w.futures := by
        rw [cleanupFutures_eq_dropWhile]
        exact List.dropWhile_suffix Future.ready
      constructor
      · exact List.Nodup.sublist
          ((hsuf.sublist.filter Future.outstanding).map Future.pos) h.1
      · intro f hf hout
        exact h.2 f (hsuf.subset hf) hout
  | task i =>
    simp only [step]
    cases hfi : w.futures.get? i with
    | none =>
      rw [taskStep_none maxHeight w i hfi]
      exact h
    | some f =>
      obtain ⟨l1, l2, hl, _, hstep⟩ := taskStep_some maxHeight w i f hfi
      rw [hstep]
      have hout : Future.outstanding { f with state :=
          (workerStep maxHeight w.meshSize w.cancelThreads f.pos f.state).1 } = true →
          f.outstanding = true := by
        intro hg
        by_contra hf
        have hr : f.ready = true := by simpa [Future.outstanding] using hf
        have := workerStep_finished maxHeight w.meshSize w.cancelThreads f hr
        simp [Future.outstanding, this] at hg
      constructor
      · have hsub := outstanding_tiles_sublist l1 l2 f
          { f with state := (workerStep maxHeight w.meshSize w.cancelThreads f.pos f.state).1 }
          rfl hout
        have hnd := h.1
        rw [hl] at hnd
        exact List.Nodup.sublist hsub hnd
      · intro g hg hgout
        simp only [List.mem_append, List.mem_cons] at hg
        rcases hg with hg | rfl | hg
        · apply h.2 g _ hgout
          rw [hl]
          simp [hg]
        · apply h.2 f _ (hout hgout)
          rw [hl]
          simp
        · apply h.2 g _ hgout
          rw [hl]
          simp [hg]

/-- Every run keeps the invariant `oneTaskPerTile`, as long as each
`allowReExtraction` is for a tile without an outstanding task. -/
theorem run_oneTaskPerTile (maxHeight : Int) (as : List Action) (w : World)
    (h : w.oneTaskPerTile) (hidle : allowsOnlyIdleTiles maxHeight w as = true) :
    (run maxHeight w as).oneTaskPerTile := by
  induction as generalizing w with
  | nil => exact h
  | cons a as ih =>
    simp only [allowsOnlyIdleTiles, Bool.and_eq_true] at hidle
    apply ih (step maxHeight w a)
    · apply step_oneTaskPerTile maxHeight w a h
      simp only [allowsOnlyIdleTiles, Bool.and_true]
      exact hidle.1
    · exact hidle.2

/-- C11, as the code has it: in every state reached from the initial state by a
run in which each `allowReExtraction` is for a tile without an outstanding
task, every tile has at most one outstanding task, and every tile with an
outstanding task is in the dedup set. -/
theorem one_outstanding_task_per_tile (maxHeight meshSize : Int) (as : List Action)
    (hidle : allowsOnlyIdleTiles maxHeight (World.initial meshSize) as = true) :
    (∀ t : IVec3, List.count t
      (((run maxHeight (World.initial meshSize) as).futures.filter Future.outstanding).map
        Future.pos) ≤ 1) ∧
    (∀ f ∈ (run maxHeight (World.initial meshSize) as).futures, f.outstanding = true →
      f.pos ∈ (run maxHeight (World.initial meshSize) as).meshesExtracted) := by
  have hinit : (World.initial meshSize).oneTaskPerTile := by
    constructor
    · simp [World.initial]
    · intro f hf
      simp [World.initial] at hf
  have hrun := run_oneTaskPerTile maxHeight as (World.initial meshSize) hinit hidle
  exact ⟨List.nodup_iff_count_le_one.mp hrun.1, hrun.2⟩

/-- C11, counterexample: after schedule, `allowReExtraction` and schedule again
for one tile, two tasks for that tile are outstanding; after schedule and
`allowReExtraction` the tile has an outstanding task and is not in the dedup
set; and after schedule, `reset` and the task returning at its first checkpoint
the tile is in the dedup set although no task is outstanding and no mesh was
delivered. -/
theorem two_outstanding_tasks_for_one_tile :
    List.count (⟨0, 0, 0⟩ : IVec3)
      (((run 128 (World.initial 16)
        [Action.schedule ⟨0, 0, 0⟩, Action.allowRe ⟨0, 0, 0⟩,
          Action.schedule ⟨0, 0, 0⟩]).futures.filter Future.outstanding).map Future.pos) = 2 ∧
    ((run 128 (World.initial 16)
        [Action.schedule ⟨0, 0, 0⟩, Action.allowRe ⟨0, 0, 0⟩]).futures =
        [⟨⟨0, 0, 0⟩, TaskState.queued⟩] ∧
      (⟨0, 0, 0⟩ : IVec3) ∉ (run 128 (World.initial 16)
        [Action.schedule ⟨0, 0, 0⟩, Action.allowRe ⟨0, 0, 0⟩]).meshesExtracted) ∧
    ((⟨0, 0, 0⟩ : IVec3) ∈ (run 128 (World.initial 16)
        [Action.schedule ⟨0, 0, 0⟩, Action.reset, Action.task 0]).meshesExtracted ∧
      (run 128 (World.initial 16)
        [Action.schedule ⟨0, 0, 0⟩, Action.reset, Action.task 0]).futures.filter
          Future.outstanding = [] ∧
      (run 128 (World.initial 16)
        [Action.schedule ⟨0, 0, 0⟩, Action.reset, Action.task 0]).meshQueue = []) := by
  refine ⟨by decide, ⟨by decide, by decide⟩, by decide, by decide, by decide⟩

/-! ## Scheduling many tiles -/

/-- Scheduling positions with pairwise distinct tiles, none of them in the dedup
set, from an active state: every call succeeds, the tiles join the dedup set
and one queued handle per tile is appended. -/
theorem scheduleAll_eq (w : World) (ps : List IVec3)
    (hc : w.cancelThreads = false)
    (hnd : (ps.map (getMeshPos w.meshSize)).Nodup)
    (hnew : ∀ p ∈ ps, getMeshPos w.meshSize p ∉ w.meshesExtracted) :
    scheduleAll w ps =
      (List.replicate ps.length true,
        { w with
          meshesExtracted :=
            w.meshesExtracted ∪ (ps.map (getMeshPos w.meshSize)).toFinset
          futures :=
            w.futures ++ ps.map (fun p => ⟨getMeshPos w.meshSize p, TaskState.queued⟩) }) := by
  induction ps generalizing w with
  | nil =>
    cases w
    simp [scheduleAll]
  | cons p ps ih =>
    have hp : getMeshPos w.meshSize p ∉ w.meshesExtracted := hnew p (List.mem_cons_self p ps)
    have hcond : ¬ (w.cancelThreads = true ∨ getMeshPos w.meshSize p ∈ w.meshesExtracted) := by
      intro h
      rcases h with h | h
      · rw [hc] at h
        exact absurd h (by decide)
      · exact hp h
    simp only [List.map_cons, List.nodup_cons] at hnd
    simp only [scheduleAll]
    rw [scheduleMeshExtraction_eq, if_neg hcond]
    have hih := ih
      { w with
        meshesExtracted := insert (getMeshPos w.meshSize p) w.meshesExtracted
        futures := w.futures ++ [⟨getMeshPos w.meshSize p, TaskState.queued⟩] }
      hc hnd.2
      (by
        intro q hq
        simp only [Finset.mem_insert, not_or]
        refine ⟨?_, hnew q (List.mem_cons_of_mem p hq)⟩
        intro heq
        apply hnd.1
        rw [← heq]
        exact List.mem_map_of_mem _ hq)
    dsimp only at hih ⊢
    rw [hih]
    simp only [List.length_cons, List.replicate_succ, List.map_cons, List.toFinset_cons,
      List.append_assoc, List.singleton_append, Prod.mk.injEq, true_and]
    congr 1
    ext t
    simp only [Finset.mem_union, Finset.mem_insert, List.mem_toFinset]
    tauto

/-- What a task owes together with what it pushes in one step is what it owed
before the step, as long as the flag is clear. -/
theorem workerStep_owed (maxHeight meshSize : Int) (f : Future)
    (h : f.state.consistent maxHeight meshSize f.pos) :
    (workerStep maxHeight meshSize false f.pos f.state).2.toList ++
      Future.owed maxHeight meshSize
        { f with state := (workerStep maxHeight meshSize false f.pos f.state).1 } =
      Future.owed maxHeight meshSize f := by
  obtain ⟨pos, st⟩ := f
  cases st with
  | queued => simp [workerStep, Future.owed, Future.ready]
  | allocated region data => simp [workerStep, Future.owed, Future.ready]
  | solidExtracted region data => simp [workerStep, Future.owed, Future.ready]
  | waterExtracted region data =>
    simp only [TaskState.consistent] at h
    simp [workerStep, Future.owed, Future.ready, h]
  | finished => simp [workerStep, Future.owed, Future.ready]

/-- With the flag clear, a worker step appends to the delivery queue what the
handles owe less afterwards. -/
theorem taskStep_owed (maxHeight : Int) (w : World) (i : Nat)
    (hc : w.cancelThreads = false)
    (hcons : ∀ f ∈ w.futures, f.state.consistent maxHeight w.meshSize f.pos) :
    (taskStep maxHeight w i).cancelThreads = false ∧
    (taskStep maxHeight w i).meshSize = w.meshSize ∧
    (∀ f ∈ (taskStep maxHeight w i).futures,
      f.state.consistent maxHeight w.meshSize f.pos) ∧
    ∃ pushed, (taskStep maxHeight w i).meshQueue = w.meshQueue ++ pushed ∧
      (pushed ++ (taskStep maxHeight w i).futures.flatMap
        (Future.owed maxHeight w.meshSize)).Perm
        (w.futures.flatMap (Future.owed maxHeight w.meshSize)) := by
  cases hfi : w.futures.get? i with
  | none =>
    rw [taskStep_none maxHeight w i hfi]
    exact ⟨hc, rfl, hcons, [], by simp, by simp⟩
  | some f =>
    obtain ⟨l1, l2, hl, _, hstep⟩ := taskStep_some maxHeight w i f hfi
    rw [hstep]
    have hfmem : f ∈ w.futures := by
      rw [hl]
      simp
    have hf := hcons f hfmem
    refine ⟨hc, rfl, ?_, (workerStep maxHeight w.meshSize w.cancelThreads f.pos f.state).2.toList,
      rfl, ?_⟩
    · intro g hg
      simp only [List.mem_append, List.mem_cons] at hg
      rcases hg with hg | rfl | hg
      · apply hcons g
        rw [hl]
        simp [hg]
      · exact workerStep_consistent maxHeight w.meshSize w.cancelThreads f.pos f.state hf
      · apply hcons g
        rw [hl]
        simp [hg]
    · have howed := workerStep_owed maxHeight w.meshSize f hf
      rw [hl, hc]
      simp only [List.flatMap_append, List.flatMap_cons]
      rw [← howed]
      rw [← Multiset.coe_eq_coe]
      simp only [← Multiset.coe_add]
      abel

/-- With the flag clear, a run of worker steps appends to the delivery queue
what the handles owe less afterwards. -/
theorem taskRun_owed (maxHeight : Int) (as : List Action) (w : World)
    (hall : ∀ a ∈ as, a.isTask = true)
    (hc : w.cancelThreads = false)
    (hcons : ∀ f ∈ w.futures, f.state.consistent maxHeight w.meshSize f.pos) :
    ∃ pushed, (run maxHeight w as).meshQueue = w.meshQueue ++ pushed ∧
      (pushed ++ (run maxHeight w as).futures.flatMap
        (Future.owed maxHeight w.meshSize)).Perm
        (w.futures.flatMap (Future.owed maxHeight w.meshSize)) := by
  induction as generalizing w with
  | nil => exact ⟨[], by simp [run], by simp [run]⟩
  | cons a as ih =>
    have ha := hall a (List.mem_cons_self a as)
    cases a with
    | task i =>
      obtain ⟨hc1, hsize, hcons1, pushed1, hq1, hperm1⟩ := taskStep_owed maxHeight w i hc hcons
      have hrest : ∀ b ∈ as, b.isTask = true := fun b hb => hall b (List.mem_cons_of_mem _ hb)
      rw [← hsize] at hcons1
      obtain ⟨pushed2, hq2, hperm2⟩ := ih (taskStep maxHeight w i) hrest hc1 hcons1
      rw [hsize] at hperm2
      refine ⟨pushed1 ++ pushed2, ?_, ?_⟩
      · simp only [run, step]
        rw [hq2, hq1, List.append_assoc]
      · simp only [run, step]
        rw [List.append_assoc]
        exact (List.Perm.append_left pushed1 hperm2).trans hperm1
    | schedule p => simp [Action.isTask] at ha
    | allowRe p => simp [Action.isTask] at ha
    | pop => simp [Action.isTask] at ha
    | reset => simp [Action.isTask] at ha
    | frame => simp [Action.isTask] at ha

/-- A run of two parts is the run of the second part from the state after the first. -/
theorem run_append (maxHeight : Int) (as bs : List Action) (w : World) :
    run maxHeight w (as ++ bs) = run maxHeight (run maxHeight w as) bs := by
  induction as generalizing w with
  | nil => rfl
  | cons a as ih =>
    rw [List.cons_append]
    simp only [run]
    exact ih (step maxHeight w a)

/-- The handle right after the handles `done` is found at index `done.length`. -/
theorem get?_append_length (done l : List Future) (f : Future) :
    (done ++ f :: l).get? done.length = some f := by
  induction done with
  | nil => rfl
  | cons d ds ih => simpa [List.get?] using ih

/-- A worker step at the handle right after the handles `done`. -/
theorem taskStep_at (maxHeight : Int) (w : World) (done l : List Future) (f : Future)
    (h : w.futures = done ++ f :: l) :
    (taskStep maxHeight w done.length).futures =
      done ++ { f with state :=
        (workerStep maxHeight w.meshSize w.cancelThreads f.pos f.state).1 } :: l ∧
    (taskStep maxHeight w done.length).cancelThreads = w.cancelThreads ∧
    (taskStep maxHeight w done.length).meshSize = w.meshSize := by
  have hget : w.futures.get? done.length = some f := by
    rw [h]
    exact get?_append_length done l f
  obtain ⟨l1, l2, hl, hlen, hstep⟩ := taskStep_some maxHeight w done.length f hget
  rw [h] at hl
  obtain ⟨h1, h2⟩ := List.append_inj hl hlen.symm
  simp only [List.cons.injEq, true_and] at h2
  rw [hstep, ← h1, ← h2]
  exact ⟨rfl, rfl, rfl⟩

/-- Four steps finish a task, whatever the flag is. -/
theorem workerStep_four (maxHeight meshSize : Int) (cancel : Bool) (pos : IVec3)
    (st : TaskState) :
    (workerStep maxHeight meshSize cancel pos
      (workerStep maxHeight meshSize cancel pos
        (workerStep maxHeight meshSize cancel pos
          (workerStep maxHeight meshSize cancel pos st).1).1).1).1 = TaskState.finished := by
  cases cancel <;> cases st <;> rfl

/-- Four worker steps at the handle right after the handles `done` finish its
task and leave the other handles alone. -/
theorem four_steps_finish (maxHeight : Int) (w : World) (done l : List Future) (f : Future)
    (h : w.futures = done ++ f :: l) :
    (run maxHeight w (List.replicate 4 (Action.task done.length))).futures =
      done ++ ⟨f.pos, TaskState.finished⟩ :: l := by
  obtain ⟨h1, c1, s1⟩ := taskStep_at maxHeight w done l f h
  obtain ⟨h2, c2, s2⟩ := taskStep_at maxHeight _ done l _ h1
  obtain ⟨h3, c3, s3⟩ := taskStep_at maxHeight _ done l _ h2
  obtain ⟨h4, _, _⟩ := taskStep_at maxHeight _ done l _ h3
  simp only [List.replicate, run, step]
  rw [h4]
  simp only [c3, c2, c1, s3, s2, s1]
  rw [workerStep_four]

/-- After `finishFrom` every handle from index `done.length` on is ready. -/
theorem finishFrom_all_ready (maxHeight : Int) (l done : List Future) (w : World)
    (h : w.futures = done ++ l) (hdone : ∀ f ∈ done, f.ready = true) :
    ∀ f ∈ (run maxHeight w (finishFrom done.length l.length)).futures, f.ready = true := by
  induction l generalizing done w with
  | nil =>
    simp only [List.length_nil, finishFrom, run]
    rw [h]
    simpa using hdone
  | cons g gs ih =>
    simp only [List.length_cons, finishFrom]
    rw [run_append]
    have h4 := four_steps_finish maxHeight w done gs g h
    have hlen : (done ++ [(⟨g.pos, TaskState.finished⟩ : Future)]).length =
        done.length + 1 := by simp
    rw [← hlen]
    apply ih
    · rw [h4]
      simp
    · intro f hf
      simp only [List.mem_append, List.mem_singleton] at hf
      rcases hf with hf | rfl
      · exact hdone f hf
      · rfl

/-- Every action of `finishFrom` is a worker step. -/
theorem finishFrom_isTask (n i : Nat) : ∀ a ∈ finishFrom i n, a.isTask = true := by
  induction n generalizing i with
  | zero =>
    intro a ha
    simp [finishFrom] at ha
  | succ n ih =>
    intro a ha
    simp only [finishFrom, List.mem_append] at ha
    rcases ha with ha | ha
    · rw [(List.mem_replicate.mp ha).2]
      rfl
    · exact ih (i + 1) a ha

/-- C18: from an active state, scheduling `N` positions whose tiles are pairwise
distinct and not in the dedup set returns true `N` times, appends `N` queued
handles, one per tile, and adds the `N` tiles to the dedup set. If no other
task is outstanding and no reset intervenes, then once worker steps have
finished all tasks, `N` mesh pairs have been appended to the delivery queue,
one for each scheduled tile; and worker steps that finish all tasks exist. -/
theorem schedule_distinct_tiles (maxHeight : Int) (w : World) (ps : List IVec3)
    (hc : w.cancelThreads = false)
    (hnd : (ps.map (getMeshPos w.meshSize)).Nodup)
    (hnew : ∀ p ∈ ps, getMeshPos w.meshSize p ∉ w.meshesExtracted) :
    (scheduleAll w ps).1 = List.replicate ps.length true ∧
    (scheduleAll w ps).2.futures =
      w.futures ++ ps.map (fun p => ⟨getMeshPos w.meshSize p, TaskState.queued⟩) ∧
    (scheduleAll w ps).2.futures.length = w.futures.length + ps.length ∧
    (scheduleAll w ps).2.meshesExtracted =
      w.meshesExtracted ∪ (ps.map (getMeshPos w.meshSize)).toFinset ∧
    (scheduleAll w ps).2.meshesExtracted.card = w.meshesExtracted.card + ps.length ∧
    (scheduleAll w ps).2.meshQueue = w.meshQueue ∧
    (scheduleAll w ps).2.cancelThreads = false ∧
    ((∀ f ∈ w.futures, f.ready = true) →
      ∀ as : List Action, (∀ a ∈ as, a.isTask = true) →
        (∀ f ∈ (run maxHeight (scheduleAll w ps).2 as).futures, f.ready = true) →
        ∃ pushed, (run maxHeight (scheduleAll w ps).2 as).meshQueue = w.meshQueue ++ pushed ∧
          pushed.Perm (ps.map
            (fun p => extractedMeshes maxHeight w.meshSize (getMeshPos w.meshSize p))) ∧
          pushed.length = ps.length) ∧
    (∃ as : List Action, (∀ a ∈ as, a.isTask = true) ∧
      ∀ f ∈ (run maxHeight (scheduleAll w ps).2 as).futures, f.ready = true) := by
  have heq := scheduleAll_eq w ps hc hnd hnew
  rw [heq]
  refine ⟨rfl, rfl, by simp, rfl, ?_, rfl, hc, ?_, ?_⟩
  · have hdisj : Disjoint w.meshesExtracted (ps.map (getMeshPos w.meshSize)).toFinset := by
      rw [Finset.disjoint_left]
      intro t ht hmem
      obtain ⟨p, hp, hpt⟩ := List.mem_map.mp (List.mem_toFinset.mp hmem)
      apply hnew p hp
      rw [hpt]
      exact ht
    simp only []
    rw [Finset.card_union_of_disjoint hdisj, List.toFinset_card_of_nodup hnd, List.length_map]
  · intro hidle as hall hready
    obtain ⟨pushed, hq, hperm⟩ := taskRun_owed maxHeight as _ hall
      (show (scheduleAll w ps).2.cancelThreads = false by rw [heq]; exact hc)
      (by
        rw [heq]
        intro f hf
        simp only [List.mem_append, List.mem_map] at hf
        rcases hf with hf | ⟨p, _, rfl⟩
        · have hr := hidle f hf
          cases hst : f.state with
          | finished => trivial
          | queued => simp [Future.ready, hst] at hr
          | allocated region data => simp [Future.ready, hst] at hr
          | solidExtracted region data => simp [Future.ready, hst] at hr
          | waterExtracted region data => simp [Future.ready, hst] at hr
        · trivial)
    rw [heq] at hq hperm
    simp only [] at hq hperm
    have hfinal : (run maxHeight
        { w with
          meshesExtracted := w.meshesExtracted ∪ (ps.map (getMeshPos w.meshSize)).toFinset
          futures := w.futures ++
            ps.map (fun p => ⟨getMeshPos w.meshSize p, TaskState.queued⟩) } as).futures.flatMap
        (Future.owed maxHeight w.meshSize) = [] := by
      rw [List.flatMap_eq_nil_iff]
      intro f hf
      simp [Future.owed, hready f hf]
    have hstart : (w.futures ++
        ps.map (fun p => (⟨getMeshPos w.meshSize p, TaskState.queued⟩ : Future))).flatMap
        (Future.owed maxHeight w.meshSize) =
        ps.map (fun p => extractedMeshes maxHeight w.meshSize (getMeshPos w.meshSize p)) := by
      rw [List.flatMap_append]
      have hold : w.futures.flatMap (Future.owed maxHeight w.meshSize) = [] := by
        rw [List.flatMap_eq_nil_iff]
        intro f hf
        simp [Future.owed, hidle f hf]
      rw [hold, List.nil_append]
      clear hq hperm hfinal hready heq hnd hnew
      induction ps with
      | nil => rfl
      | cons p ps ih =>
        simp only [List.map_cons, List.flatMap_cons, ih]
        simp [Future.owed, Future.ready]
    rw [hfinal, hstart, List.append_nil] at hperm
    refine ⟨pushed, hq, hperm, ?_⟩
    rw [hperm.length_eq, List.length_map]
  · refine ⟨finishFrom 0 (w.futures ++
        ps.map (fun p => (⟨getMeshPos w.meshSize p, TaskState.queued⟩ : Future))).length,
      finishFrom_isTask _ 0, ?_⟩
    exact finishFrom_all_ready maxHeight _ [] _ rfl (by simp)

/-! ## Shutdown -/

/-- Worker steps leave the cancellation flag alone. -/
theorem taskRun_cancelThreads (maxHeight : Int) (is : List Nat) (w : World) :
    (run maxHeight w (is.map Action.task)).cancelThreads = w.cancelThreads := by
  induction is generalizing w with
  | nil => rfl
  | cons i is ih =>
    simp only [List.map_cons, run, step]
    rw [ih, taskStep_cancelThreads]

/-- A worker step keeps the number of handles; the first handle stays ready if
it was, and it becomes ready when the step is its own and the flag is set. -/
theorem taskStep_head (maxHeight : Int) (w : World) (i : Nat) (f : Future) (fs : List Future)
    (h : w.futures = f :: fs) :
    ∃ f1 fs1, (taskStep maxHeight w i).futures = f1 :: fs1 ∧ fs1.length = fs.length ∧
      (f.ready = true → f1.ready = true) ∧
      (i = 0 → w.cancelThreads = true → f1.ready = true) := by
  cases hget : w.futures.get? i with
  | none =>
    rw [taskStep_none maxHeight w i hget]
    refine ⟨f, fs, h, rfl, fun hr => hr, ?_⟩
    intro hi _
    subst hi
    rw [h] at hget
    simp at hget
  | some g =>
    have hfut : (taskStep maxHeight w i).futures = w.futures.set i
        { g with state := (workerStep maxHeight w.meshSize w.cancelThreads g.pos g.state).1 } := by
      simp only [taskStep, hget]
    rw [hfut, h]
    cases i with
    | zero =>
      rw [h] at hget
      simp only [List.get?, Option.some.injEq] at hget
      subst hget
      refine ⟨_, fs, rfl, rfl, ?_, ?_⟩
      · intro hr
        exact workerStep_finished maxHeight w.meshSize w.cancelThreads f hr
      · intro _ hc
        rw [hc, workerStep_cancelled]
        rfl
    | succ j =>
      refine ⟨f, _, rfl, by simp, fun hr => hr, ?_⟩
      intro hj
      exact absurd hj (Nat.succ_ne_zero j)

/-- During a cancellation, worker steps keep the number of handles, and the
first handle is ready afterwards if it was ready or took one of the steps. -/
theorem taskRun_head (maxHeight : Int) (is : List Nat) (w : World) (f : Future)
    (fs : List Future) (h : w.futures = f :: fs) (hc : w.cancelThreads = true) :
    ∃ f1 fs1, (run maxHeight w (is.map Action.task)).futures = f1 :: fs1 ∧
      fs1.length = fs.length ∧ (f.ready = true ∨ 0 ∈ is → f1.ready = true) := by
  induction is generalizing w f fs with
  | nil => exact ⟨f, fs, h, rfl, by simp⟩
  | cons i is ih =>
    obtain ⟨f1, fs1, h1, hlen1, hkeep, hzero⟩ := taskStep_head maxHeight w i f fs h
    have hc1 : (taskStep maxHeight w i).cancelThreads = true := by
      rw [taskStep_cancelThreads, hc]
    obtain ⟨f2, fs2, h2, hlen2, hready⟩ := ih (taskStep maxHeight w i) f1 fs1 h1 hc1
    refine ⟨f2, fs2, by simpa [run, step] using h2, by rw [hlen2, hlen1], ?_⟩
    intro hor
    apply hready
    rcases hor with hr | hmem
    · exact Or.inl (hkeep hr)
    · rcases List.mem_cons.mp hmem with h0 | hrest
      · exact Or.inl (hzero h0.symm hc)
      · exact Or.inr hrest

/-- When the wait loop of `shutdown` ends, no handle is left and the flag is
as it was. -/
theorem shutdownWait_some (maxHeight : Int) (rounds : List (List Nat)) (w w1 : World)
    (h : shutdownWait maxHeight rounds w = some w1) :
    w1.futures = [] ∧ w1.cancelThreads = w.cancelThreads := by
  induction rounds generalizing w with
  | nil =>
    simp only [shutdownWait] at h
    by_cases he : w.futures.isEmpty = true
    · simp only [he, if_true, Option.some.injEq] at h
      subst h
      exact ⟨List.isEmpty_iff.mp he, rfl⟩
    · simp [he] at h
  | cons r rest ih =>
    simp only [shutdownWait] at h
    by_cases he : w.futures.isEmpty = true
    · simp only [he, if_true, Option.some.injEq] at h
      subst h
      exact ⟨List.isEmpty_iff.mp he, rfl⟩
    · simp only [he] at h
      obtain ⟨hf, hflag⟩ := ih _ h
      refine ⟨hf, ?_⟩
      rw [hflag]
      exact taskRun_cancelThreads maxHeight r w

/-- The wait loop of `shutdown` ends when there are at least as many passes as
handles and the task behind the first handle takes a step before every pass. -/
theorem shutdownWait_isSome (maxHeight : Int) (rounds : List (List Nat)) (w : World)
    (hc : w.cancelThreads = true) (hlen : w.futures.length ≤ rounds.length)
    (hfair : ∀ r ∈ rounds, 0 ∈ r) :
    (shutdownWait maxHeight rounds w).isSome = true := by
  induction rounds generalizing w with
  | nil =>
    have hf : w.futures = [] := List.length_eq_zero.mp (Nat.le_zero.mp hlen)
    simp [shutdownWait, hf]
  | cons r rest ih =>
    simp only [shutdownWait]
    cases hfs : w.futures with
    | nil => simp
    | cons f fs =>
      simp only [List.isEmpty_cons, Bool.false_eq_true, if_false]
      obtain ⟨f1, fs1, h1, hlen1, hready⟩ := taskRun_head maxHeight r w f fs hfs hc
      have hf1 : f1.ready = true := hready (Or.inr (hfair r (List.mem_cons_self r rest)))
      apply ih
      · exact (taskRun_cancelThreads maxHeight r w).trans hc
      · show (cleanupFutures (run maxHeight w (r.map Action.task)).futures).length ≤ rest.length
        rw [h1]
        simp only [cleanupFutures, hf1, if_true]
        have hle := cleanupFutures_length_le fs1
        rw [hfs] at hlen
        simp only [List.length_cons] at hlen
        omega
      · intro r1 hr1
        exact hfair r1 (List.mem_cons_of_mem r hr1)

/-- C19: when `shutdown` returns, the handles, the dedup set and the delivery
queue are empty and the cancellation flag is set, so every later
`scheduleMeshExtraction` is refused; and it does return when the wait loop makes
at least as many passes as there are handles and the task behind the first
handle takes a step before every pass. -/
theorem shutdown_drains (maxHeight : Int) (workers : List (List Nat)) (w : World) :
    (∀ w1, shutdown maxHeight workers w = some w1 →
      w1.futures = [] ∧ w1.meshesExtracted = ∅ ∧ w1.meshQueue = [] ∧
      w1.cancelThreads = true ∧ isReset w1 = true ∧
      ∀ p, scheduleMeshExtraction w1 p = (false, w1)) ∧
    (w.futures.length ≤ workers.length → (∀ r ∈ workers, 0 ∈ r) →
      (shutdown maxHeight workers w).isSome = true) := by
  constructor
  · intro w1 h
    simp only [shutdown] at h
    cases hwait : shutdownWait maxHeight workers { w with cancelThreads := true } with
    | none => simp [hwait] at h
    | some w2 =>
      simp only [hwait, Option.some.injEq] at h
      obtain ⟨hf, hflag⟩ := shutdownWait_some maxHeight workers _ w2 hwait
      subst h
      refine ⟨hf, rfl, rfl, hflag, hflag, ?_⟩
      intro p
      rw [scheduleMeshExtraction_eq, if_pos (Or.inl hflag)]
  · intro hlen hfair
    have hsome := shutdownWait_isSome maxHeight workers { w with cancelThreads := true }
      rfl hlen hfair
    simp only [shutdown]
    cases hwait : shutdownWait maxHeight workers { w with cancelThreads := true } with
    | none => simp [hwait] at hsome
    | some w2 => rfl

/-! ## The later properties at concrete states -/

/-- C11 as the code has it, at a run that releases a tile after its task has
finished and schedules it again: one task for the tile is outstanding. -/
theorem one_outstanding_task_per_tile_witness :
    allowsOnlyIdleTiles 128 (World.initial 16) rescheduleRun = true ∧
    List.count (⟨16, 0, -16⟩ : IVec3)
      (((run 128 (World.initial 16) rescheduleRun).futures.filter Future.outstanding).map
        Future.pos) ≤ 1 ∧
    (run 128 (World.initial 16) rescheduleRun).futures.length = 2 :=
  ⟨by decide, (one_outstanding_task_per_tile 128 16 rescheduleRun (by decide)).1 ⟨16, 0, -16⟩,
    by decide⟩

/-- C12 at a run that schedules tile (16, 0, -16) and lets its task finish: the
mesh pair in the queue is the one of a scheduled tile. -/
theorem delivered_meshes_were_scheduled_witness :
    (⟨⟨⟨16, 0, -16⟩, 4096, 4096⟩, ⟨⟨16, 0, -16⟩, 4096, 4096⟩⟩ : ChunkMeshes) ∈
      (run 128 (World.initial 16) deliverRun).meshQueue ∧
    ∃ t ∈ scheduledTiles 128 (World.initial 16) deliverRun,
      (⟨⟨⟨16, 0, -16⟩, 4096, 4096⟩, ⟨⟨16, 0, -16⟩, 4096, 4096⟩⟩ : ChunkMeshes) =
        extractedMeshes 128 16 t :=
  ⟨by decide, (delivered_meshes_were_scheduled 128 16 deliverRun).1 _ (by decide)⟩

/-- C14 at a column whose first voxel of material 1 is at height 4. -/
theorem findFloor_first_match_witness :
    (∀ b ∈ [(⟨⟨3, 5, 7⟩, ⟨0⟩⟩ : Sampler)], isMaterialOne b.voxel.material = false) ∧
    isMaterialOne (1 : VoxelType) = true ∧
    findFloor (-1) sampleRay isMaterialOne = 4 :=
  ⟨by decide, by decide,
    (findFloor_first_match (-1) sampleRay isMaterialOne).1
      [⟨⟨3, 5, 7⟩, ⟨0⟩⟩] ⟨⟨3, 4, 7⟩, ⟨1⟩⟩ [⟨⟨3, 3, 7⟩, ⟨1⟩⟩] rfl (by decide) (by decide)⟩

/-- C15 at a ray whose first blocked voxel is at (3, 4, 7). -/
theorem raycast_first_blocked_witness :
    (∀ b ∈ [(⟨⟨3, 5, 7⟩, ⟨0⟩⟩ : Sampler)], isMaterialOne b.voxel.material = false) ∧
    raycast isMaterialOne sampleRay ⟨0, 0, 0⟩ ⟨9⟩ = (true, ⟨3, 4, 7⟩, ⟨1⟩) :=
  ⟨by decide,
    (raycast_first_blocked isMaterialOne sampleRay ⟨0, 0, 0⟩ ⟨9⟩).2.1
      [⟨⟨3, 5, 7⟩, ⟨0⟩⟩] ⟨⟨3, 4, 7⟩, ⟨1⟩⟩ [⟨⟨3, 3, 7⟩, ⟨1⟩⟩] rfl (by decide) (by decide)⟩

/-- C16 as the code has it, at mesh size 16: (-5, 17, 0) and (-1, 31, 15) lie
in tile (-16, 16, 0). -/
theorem getMeshPos_floor_witness :
    (0 : Int) < 16 ∧ (16 : Int) < 16777216 ∧
    IVec3.exactFor 16 ⟨-5, 17, 0⟩ ∧ IVec3.exactFor 16 ⟨-1, 31, 15⟩ ∧
    getMeshPos 16 ⟨-5, 17, 0⟩ = ⟨-16, 16, 0⟩ ∧
    getMeshPos 16 ⟨-1, 31, 15⟩ = getMeshPos 16 ⟨-5, 17, 0⟩ :=
  ⟨by decide, by decide,
    ⟨⟨by decide, by decide⟩, ⟨by decide, by decide⟩, ⟨by decide, by decide⟩⟩,
    ⟨⟨by decide, by decide⟩, ⟨by decide, by decide⟩, ⟨by decide, by decide⟩⟩,
    by decide,
    (getMeshPos_floor 16 (by decide) (by decide) ⟨-5, 17, 0⟩
      ⟨⟨by decide, by decide⟩, ⟨by decide, by decide⟩, ⟨by decide, by decide⟩⟩).2.2.2.2.2.1
      ⟨-1, 31, 15⟩
      ⟨⟨by decide, by decide⟩, ⟨by decide, by decide⟩, ⟨by decide, by decide⟩⟩
      (by decide) (by decide) (by decide)⟩

/-- C17 as the code has it, at tile (16, 48, -16) with size 16 in a world of
height 128. -/
theorem getRegion_box_witness :
    (1 : Int) ≤ 16 ∧ fitsInt32 16 ∧ (1 : Int) ≤ 128 ∧ fitsInt32 128 ∧
    (fitsInt32 16 ∧ fitsInt32 (16 + 16 - 1)) ∧ (fitsInt32 (-16) ∧ fitsInt32 (-16 + 16 - 1)) ∧
    getRegion 128 ⟨16, 48, -16⟩ 16 = ⟨⟨16, 0, -16⟩, ⟨16 + 16 - 1, 128 - 1, -16 + 16 - 1⟩⟩ ∧
    (getRegion 128 ⟨16, 48, -16⟩ 16).getWidthInVoxels = 16 :=
  ⟨by decide, ⟨by decide, by decide⟩, by decide, ⟨by decide, by decide⟩,
    ⟨⟨by decide, by decide⟩, ⟨by decide, by decide⟩⟩,
    ⟨⟨by decide, by decide⟩, ⟨by decide, by decide⟩⟩,
    (getRegion_box 128 ⟨16, 48, -16⟩ 16 (by decide) ⟨by decide, by decide⟩ (by decide)
      ⟨by decide, by decide⟩
      ⟨⟨by decide, by decide⟩, ⟨by decide, by decide⟩⟩
      ⟨⟨by decide, by decide⟩, ⟨by decide, by decide⟩⟩).1,
    (getRegion_box 128 ⟨16, 48, -16⟩ 16 (by decide) ⟨by decide, by decide⟩ (by decide)
      ⟨by decide, by decide⟩
      ⟨⟨by decide, by decide⟩, ⟨by decide, by decide⟩⟩
      ⟨⟨by decide, by decide⟩, ⟨by decide, by decide⟩⟩).2.1⟩

/-- C18 at the fresh world with two positions in different tiles: both calls
succeed, and after the two tasks have run in turns two mesh pairs are queued. -/
theorem schedule_distinct_tiles_witness :
    freshWorld.cancelThreads = false ∧
    ([(⟨0, 0, 0⟩ : IVec3), ⟨17, 0, 0⟩].map (getMeshPos freshWorld.meshSize)).Nodup ∧
    (scheduleAll freshWorld [⟨0, 0, 0⟩, ⟨17, 0, 0⟩]).1 = [true, true] ∧
    (∀ f ∈ (run 128 (scheduleAll freshWorld [⟨0, 0, 0⟩, ⟨17, 0, 0⟩]).2
      alternatingTasks).futures, f.ready = true) ∧
    ∃ pushed,
      (run 128 (scheduleAll freshWorld [⟨0, 0, 0⟩, ⟨17, 0, 0⟩]).2 alternatingTasks).meshQueue =
        freshWorld.meshQueue ++ pushed ∧
      pushed.Perm ([(⟨0, 0, 0⟩ : IVec3), ⟨17, 0, 0⟩].map
        (fun p => extractedMeshes 128 freshWorld.meshSize (getMeshPos freshWorld.meshSize p))) ∧
      pushed.length = [(⟨0, 0, 0⟩ : IVec3), ⟨17, 0, 0⟩].length :=
  ⟨by decide, by decide,
    (schedule_distinct_tiles 128 freshWorld [⟨0, 0, 0⟩, ⟨17, 0, 0⟩]
      (by decide) (by decide) (by decide)).1,
    by decide,
    (schedule_distinct_tiles 128 freshWorld [⟨0, 0, 0⟩, ⟨17, 0, 0⟩]
      (by decide) (by decide) (by decide)).2.2.2.2.2.2.2.1 (by decide) alternatingTasks
      (by decide) (by decide)⟩

/-- C19 at a world with a waiting and a finished task, where the task behind the
first handle takes a step before each of two passes of the wait loop. -/
theorem shutdown_drains_witness :
    lateFirstTaskWorld.futures.length ≤ [[0], [0]].length ∧
    (shutdown 128 [[0], [0]] lateFirstTaskWorld).isSome = true ∧
    shutdown 128 [[0], [0]] lateFirstTaskWorld = some shutDownWorld ∧
    (scheduleMeshExtraction shutDownWorld ⟨40, 0, 0⟩).1 = false :=
  ⟨by decide,
    (shutdown_drains 128 [[0], [0]] lateFirstTaskWorld).2 (by decide) (by decide),
    by rfl,
    by rw [((shutdown_drains 128 [[0], [0]] lateFirstTaskWorld).1 shutDownWorld (by rfl)).2.2.2.2.2
      ⟨40, 0, 0⟩]⟩

/-! ## The task lambda as a whole -/

/-- C21: the task lambda as a function of its four reads of the flag pushes
exactly one mesh pair, the one of its tile, if and only if all four reads are
false. If a read is true it pushes nothing and extracts nothing after that
read: nothing is allocated or extracted when the first read is true, nothing is
extracted when the second is, one mesh when the third is, both when only the
fourth is. The four worker steps of the interleaving model push the same, and a
worker step never changes the dedup set. -/
theorem workerTask_checkpoints (maxHeight meshSize : Int) (pos : IVec3)
    (read1 read2 read3 read4 : Bool) :
    ((workerTask maxHeight meshSize pos read1 read2 read3 read4).pushed.length = 1 ↔
      (read1 = false ∧ read2 = false ∧ read3 = false ∧ read4 = false)) ∧
    (workerTask maxHeight meshSize pos false false false false).pushed =
      [extractedMeshes maxHeight meshSize pos] ∧
    ((read1 = true ∨ read2 = true ∨ read3 = true ∨ read4 = true) →
      (workerTask maxHeight meshSize pos read1 read2 read3 read4).pushed = []) ∧
    (read1 = true →
      workerTask maxHeight meshSize pos read1 read2 read3 read4 = ⟨false, 0, []⟩) ∧
    (read1 = false → read2 = true →
      (workerTask maxHeight meshSize pos read1 read2 read3 read4).extractions = 0) ∧
    (read1 = false → read2 = false → read3 = true →
      (workerTask maxHeight meshSize pos read1 read2 read3 read4).extractions = 1) ∧
    (read1 = false → read2 = false → read3 = false →
      (workerTask maxHeight meshSize pos read1 read2 read3 read4).extractions = 2) ∧
    workerStepsPushed maxHeight meshSize pos read1 read2 read3 read4 =
      (workerTask maxHeight meshSize pos read1 read2 read3 read4).pushed ∧
    (∀ (w : World) (i : Nat), (taskStep maxHeight w i).meshesExtracted = w.meshesExtracted) := by
  refine ⟨?_, rfl, ?_, ?_, ?_, ?_, ?_, ?_, ?_⟩
  · cases read1 <;> cases read2 <;> cases read3 <;> cases read4 <;> simp [workerTask]
  · intro h
    cases read1 <;> cases read2 <;> cases read3 <;> cases read4 <;> simp_all [workerTask]
  · intro h
    subst h
    rfl
  · intro h1 h2
    subst h1
    subst h2
    rfl
  · intro h1 h2 h3
    subst h1
    subst h2
    subst h3
    rfl
  · intro h1 h2 h3
    subst h1
    subst h2
    subst h3
    cases read4 <;> rfl
  · cases read1 <;> cases read2 <;> cases read3 <;> cases read4 <;> rfl
  · intro w i
    exact taskStep_meshesExtracted maxHeight w i

/-! ## What `onFrame` leaves alone -/

/-- As long as a handle is not ready, reaping leaves a handle. -/
theorem cleanupFutures_ne_nil (l : List Future) (h : ∃ f ∈ l, f.ready = false) :
    cleanupFutures l ≠ [] := by
  intro hnil
  obtain ⟨f, hf, hr⟩ := h
  induction l with
  | nil => simp at hf
  | cons g gs ih =>
    by_cases hg : g.ready = true
    · simp only [cleanupFutures, hg, if_true] at hnil
      rcases List.mem_cons.mp hf with rfl | hmem
      · rw [hg] at hr
        exact absurd hr (by decide)
      · exact ih hnil hmem
    · simp [cleanupFutures, hg] at hnil

/-- C22: with the flag set and a handle that is not ready, `onFrame` leaves the
flag set and the dedup set and the delivery queue as they were; with the flag
clear it changes nothing but the handles. In every case the handles erased are
the longest run of ready handles at the front, and the handles left are the
rest in their order. -/
theorem onFrame_frame_effect (w : World) :
    (w.cancelThreads = true → (∃ f ∈ w.futures, f.ready = false) →
      (onFrame w).cancelThreads = true ∧
      (onFrame w).meshesExtracted = w.meshesExtracted ∧
      (onFrame w).meshQueue = w.meshQueue ∧
      (onFrame w).meshSize = w.meshSize) ∧
    (w.cancelThreads = false →
      onFrame w = { w with futures := w.futures.dropWhile Future.ready }) ∧
    (onFrame w).futures = w.futures.dropWhile Future.ready ∧
    w.futures = w.futures.takeWhile Future.ready ++ (onFrame w).futures ∧
    (∀ f ∈ w.futures.takeWhile Future.ready, f.ready = true) ∧
    (∀ f, (onFrame w).futures.head? = some f → f.ready = false) := by
  have hfut : (onFrame w).futures = cleanupFutures w.futures := by
    rw [onFrame_eq]
    by_cases h : w.cancelThreads = true ∧ cleanupFutures w.futures = []
    · simp [h]
    · simp [h]
  refine ⟨?_, ?_, ?_, ?_, ?_, ?_⟩
  · intro hc hex
    have hne := cleanupFutures_ne_nil w.futures hex
    rw [onFrame_eq, if_neg (fun h => hne h.2)]
    exact ⟨hc, rfl, rfl, rfl⟩
  · intro hc
    rw [onFrame_eq, if_neg, cleanupFutures_eq_dropWhile]
    intro h
    rw [hc] at h
    exact absurd h.1 (by decide)
  · rw [hfut, cleanupFutures_eq_dropWhile]
  · rw [hfut]
    exact cleanupFutures_split w.futures
  · intro f hf
    exact List.mem_takeWhile_imp hf
  · intro f hf
    rw [hfut] at hf
    exact cleanupFutures_head_not_ready w.futures f hf

/-! ## Regions of scheduled tiles -/

/-- C23, the code at two positions one tile above the other: for mesh size 16
the positions (0, 0, 0) and (0, 16, 0) have the same mesh region, the tiles
(0, 0, 0) and (0, 16, 0) differ, and both `scheduleMeshExtraction` calls return
true, so two tasks are submitted for one region. -/
theorem same_region_scheduled_twice :
    (∀ maxHeight : Int, getMeshRegion maxHeight 16 (getMeshPos 16 ⟨0, 0, 0⟩) =
      getMeshRegion maxHeight 16 (getMeshPos 16 ⟨0, 16, 0⟩)) ∧
    getMeshPos 16 ⟨0, 0, 0⟩ ≠ getMeshPos 16 ⟨0, 16, 0⟩ ∧
    (scheduleMeshExtraction freshWorld ⟨0, 0, 0⟩).1 = true ∧
    (scheduleMeshExtraction (scheduleMeshExtraction freshWorld ⟨0, 0, 0⟩).2 ⟨0, 16, 0⟩).1 =
      true ∧
    (scheduleMeshExtraction (scheduleMeshExtraction freshWorld ⟨0, 0, 0⟩).2
      ⟨0, 16, 0⟩).2.futures =
      [⟨⟨0, 0, 0⟩, TaskState.queued⟩, ⟨⟨0, 16, 0⟩, TaskState.queued⟩] := by
  refine ⟨fun _ => rfl, by decide, by decide, by decide, by decide⟩

/-- C24, as the code has it: for a mesh size `s` with `1 ≤ s < 2^24`, a
position whose `x` and `z` satisfy `-2^24 + s ≤ c < 2^24` and whose height lies
in the world, the mesh region of the tile of the position contains the
position, in every component and also for negative coordinates. -/
theorem meshRegion_contains_position (maxHeight s : Int) (p : IVec3)
    (hs : 1 ≤ s) (hs2 : s < 16777216)
    (hx : exactCoord s p.x) (hz : exactCoord s p.z)
    (hy0 : 0 ≤ p.y) (hy1 : p.y < maxHeight) (hh : fitsInt32 maxHeight) :
    ((getMeshRegion maxHeight s (getMeshPos s p)).mins.x ≤ p.x ∧
      p.x ≤ (getMeshRegion maxHeight s (getMeshPos s p)).maxs.x) ∧
    ((getMeshRegion maxHeight s (getMeshPos s p)).mins.y ≤ p.y ∧
      p.y ≤ (getMeshRegion maxHeight s (getMeshPos s p)).maxs.y) ∧
    ((getMeshRegion maxHeight s (getMeshPos s p)).mins.z ≤ p.z ∧
      p.z ≤ (getMeshRegion maxHeight s (getMeshPos s p)).maxs.z) := by
  have hpos : 0 < s := by omega
  simp only [exactCoord] at hx hz
  simp only [fitsInt32] at hh
  have tx := tile_bounds p.x s hpos
  have tz := tile_bounds p.z s hpos
  have hcx := getMeshCoord_exact s p.x hpos hs2 (by omega) hx.2
  have hcz := getMeshCoord_exact s p.z hpos hs2 (by omega) hz.2
  have hdelta : wrapInt32 (s - 1) = s - 1 := wrapInt32_of_range _ (by omega) (by omega)
  simp only [getMeshRegion, getRegion, getMeshPos, hcx, hcz, hdelta]
  rw [wrapInt32_of_range (s * (p.x / s) + (s - 1)) (by omega) (by omega),
    wrapInt32_of_range (s * (p.z / s) + (s - 1)) (by omega) (by omega),
    wrapInt32_of_range (maxHeight - 1) (by omega) (by omega)]
  refine ⟨⟨tx.1, ?_⟩, ⟨hy0, ?_⟩, ⟨tz.1, ?_⟩⟩
  · omega
  · omega
  · omega

/-- C24, counterexample: for the mesh size 16 the coordinate 16777231 has 25
binary digits and `float` rounds it to 16777232, which becomes the tile; the
mesh region of that tile starts above the position. -/
theorem meshRegion_misses_position :
    getMeshPos 16 ⟨16777231, 0, 0⟩ = ⟨16777232, 0, 0⟩ ∧
    getMeshRegion 128 16 (getMeshPos 16 ⟨16777231, 0, 0⟩) =
      ⟨⟨16777232, 0, 0⟩, ⟨16777247, 127, 15⟩⟩ ∧
    ¬ ((getMeshRegion 128 16 (getMeshPos 16 ⟨16777231, 0, 0⟩)).mins.x ≤ 16777231) := by
  refine ⟨by decide, by decide, by decide⟩

/-! ## The order of mesh pairs -/

/-- The comparison of mesh pairs holds when every component of the left
translation is below the one of the right translation. -/
theorem ChunkMeshes.lt_iff (a b : ChunkMeshes) :
    a.lt b = true ↔
      a.translation.x < b.translation.x ∧ a.translation.y < b.translation.y ∧
        a.translation.z < b.translation.z := by
  simp [ChunkMeshes.lt, all, lessThan, and_assoc]

/-- C25, as the code has it: `ChunkMeshes::operator<` holds exactly when every
component of the left translation is strictly less than that of the right one,
and it is irreflexive, asymmetric and transitive. -/
theorem ChunkMeshes.lt_strict_order (a b c : ChunkMeshes) :
    (a.lt b = true ↔
      a.translation.x < b.translation.x ∧ a.translation.y < b.translation.y ∧
        a.translation.z < b.translation.z) ∧
    a.lt a = false ∧
    (a.lt b = true → b.lt a = false) ∧
    (a.lt b = true → b.lt c = true → a.lt c = true) := by
  refine ⟨ChunkMeshes.lt_iff a b, ?_, ?_, ?_⟩
  · cases h : a.lt a
    · rfl
    · have := (ChunkMeshes.lt_iff a a).mp h
      omega
  · intro hab
    cases h : b.lt a
    · rfl
    · have h1 := (ChunkMeshes.lt_iff a b).mp hab
      have h2 := (ChunkMeshes.lt_iff b a).mp h
      omega
  · intro hab hbc
    have h1 := (ChunkMeshes.lt_iff a b).mp hab
    have h2 := (ChunkMeshes.lt_iff b c).mp hbc
    apply (ChunkMeshes.lt_iff a c).mpr
    omega

/-- C25, counterexample: the mesh pairs at (0, 0, 0) and (0, 5, 0) are
incomparable, so are those at (0, 5, 0) and (1, 1, 1), but the one at (0, 0, 0)
is less than the one at (1, 1, 1): incomparability is not transitive. -/
theorem ChunkMeshes.lt_incomparability_not_transitive :
    ((meshesAt ⟨0, 0, 0⟩).lt (meshesAt ⟨0, 5, 0⟩) = false ∧
      (meshesAt ⟨0, 5, 0⟩).lt (meshesAt ⟨0, 0, 0⟩) = false) ∧
    ((meshesAt ⟨0, 5, 0⟩).lt (meshesAt ⟨1, 1, 1⟩) = false ∧
      (meshesAt ⟨1, 1, 1⟩).lt (meshesAt ⟨0, 5, 0⟩) = false) ∧
    (meshesAt ⟨0, 0, 0⟩).lt (meshesAt ⟨1, 1, 1⟩) = true ∧
    ¬ (∀ a b c : ChunkMeshes,
      (a.lt b = false ∧ b.lt a = false) → (b.lt c = false ∧ c.lt b = false) →
      (a.lt c = false ∧ c.lt a = false)) := by
  refine ⟨by decide, by decide, by decide, ?_⟩
  intro h
  have h1 := h (meshesAt ⟨0, 0, 0⟩) (meshesAt ⟨0, 5, 0⟩) (meshesAt ⟨1, 1, 1⟩)
    (by decide) (by decide)
  exact absurd h1.1 (by decide)

/-! ## The last properties at concrete inputs -/

/-- C21 at a task that sees the flag set at its third read: one extraction,
nothing pushed. -/
theorem workerTask_checkpoints_witness :
    (workerTask 128 16 ⟨16, 0, 0⟩ false false true false).pushed = [] ∧
    (workerTask 128 16 ⟨16, 0, 0⟩ false false true false).extractions = 1 :=
  ⟨(workerTask_checkpoints 128 16 ⟨16, 0, 0⟩ false false true false).2.2.1
      (Or.inr (Or.inr (Or.inl rfl))),
    (workerTask_checkpoints 128 16 ⟨16, 0, 0⟩ false false true false).2.2.2.2.2.1
      rfl rfl rfl⟩

/-- C22 at a state in the middle of a reset with a task that has not started,
and at an active state with a finished handle behind a waiting one. -/
theorem onFrame_frame_effect_witness :
    cancellingWorld.cancelThreads = true ∧
    (∃ f ∈ cancellingWorld.futures, f.ready = false) ∧
    (onFrame cancellingWorld).cancelThreads = true ∧
    (onFrame cancellingWorld).meshesExtracted = cancellingWorld.meshesExtracted ∧
    lateFirstTaskWorld.cancelThreads = false ∧
    onFrame lateFirstTaskWorld =
      { lateFirstTaskWorld with
        futures := lateFirstTaskWorld.futures.dropWhile Future.ready } :=
  ⟨by decide, by decide,
    ((onFrame_frame_effect cancellingWorld).1 (by decide) (by decide)).1,
    ((onFrame_frame_effect cancellingWorld).1 (by decide) (by decide)).2.1,
    by decide,
    (onFrame_frame_effect lateFirstTaskWorld).2.1 (by decide)⟩

/-- C24 as the code has it, at mesh size 16 and the position (-5, 17, -1) in a
world of height 128. -/
theorem meshRegion_contains_position_witness :
    (1 : Int) ≤ 16 ∧ (16 : Int) < 16777216 ∧ exactCoord 16 (-5) ∧ exactCoord 16 (-1) ∧
    (0 : Int) ≤ 17 ∧ (17 : Int) < 128 ∧ fitsInt32 128 ∧
    getMeshRegion 128 16 (getMeshPos 16 ⟨-5, 17, -1⟩) = ⟨⟨-16, 0, -16⟩, ⟨-1, 127, -1⟩⟩ ∧
    (getMeshRegion 128 16 (getMeshPos 16 ⟨-5, 17, -1⟩)).mins.x ≤ -5 ∧
    -5 ≤ (getMeshRegion 128 16 (getMeshPos 16 ⟨-5, 17, -1⟩)).maxs.x :=
  ⟨by decide, by decide, ⟨by decide, by decide⟩, ⟨by decide, by decide⟩,
    by decide, by decide, ⟨by decide, by decide⟩, by decide,
    (meshRegion_contains_position 128 16 ⟨-5, 17, -1⟩ (by decide) (by decide)
      ⟨by decide, by decide⟩ ⟨by decide, by decide⟩ (by decide) (by decide)
      ⟨by decide, by decide⟩).1⟩

/-- C25 as the code has it, at three mesh pairs along the diagonal. -/
theorem ChunkMeshes.lt_strict_order_witness :
    (meshesAt ⟨0, 0, 0⟩).lt (meshesAt ⟨1, 1, 1⟩) = true ∧
    (meshesAt ⟨1, 1, 1⟩).lt (meshesAt ⟨2, 3, 4⟩) = true ∧
    (meshesAt ⟨0, 0, 0⟩).lt (meshesAt ⟨2, 3, 4⟩) = true ∧
    (meshesAt ⟨1, 1, 1⟩).lt (meshesAt ⟨0, 0, 0⟩) = false :=
  ⟨by decide, by decide,
    (ChunkMeshes.lt_strict_order (meshesAt ⟨0, 0, 0⟩) (meshesAt ⟨1, 1, 1⟩)
      (meshesAt ⟨2, 3, 4⟩)).2.2.2 (by decide) (by decide),
    (ChunkMeshes.lt_strict_order (meshesAt ⟨0, 0, 0⟩) (meshesAt ⟨1, 1, 1⟩)
      (meshesAt ⟨2, 3, 4⟩)).2.2.1 (by decide)⟩

end voxel
